import Mathlib

/-!
# Verification of the cipher-box mount engine against its specification

Shallow embedding, in Lean 4, of the components of the cipher-box desktop
filesystem engine (Rust sources under `apps/desktop/src-tauri/src`) that the
frozen claims are about:

* the content LRU cache (`fuse/cache.rs`),
* the publish coordinator's sequence cache (`fuse/mod.rs`),
* AES-256-GCM sealing and AES-256-CTR range decryption (`crypto/aes.rs`,
  `crypto/aes_ctr.rs`), modelled as the GCM/CTR modes of operation over an
  abstract 16-byte block cipher (the AES-256 block function itself is supplied
  by the external `aes` crate and is therefore a parameter here),
* the folder-metadata version dispatch (`crypto/folder.rs`),
* the Ed25519 wrapper functions (`crypto/ed25519.rs`), over an abstract
  backend standing for the external `ed25519-dalek` crate,
* the inode table and its populate operation (`fuse/inode.rs`).

Rust `HashMap`s are modelled as association lists with overwrite-on-insert;
byte strings (`Vec<u8>`, `&[u8]`) are `List Nat`; machine integers are `Nat`
with explicit `% 2 ^ 64` (or `% 2 ^ 32`) where the Rust code wraps.
-/

set_option autoImplicit false

namespace CipherBox

/-- Byte strings (`Vec<u8>` / `&[u8]` in the Rust source). -/
abbrev Bytes := List Nat

-- ── Association-list model of Rust `HashMap` ─────────────────────────────────

/-- Lookup in an association-list map (`HashMap::get`). -/
def mapLookup {K V : Type} [DecidableEq K] : List (K × V) → K → Option V
  | [], _ => none
  | p :: rest, k => if p.1 = k then some p.2 else mapLookup rest k

/-- Remove a key from an association-list map (`HashMap::remove`, value dropped). -/
def mapErase {K V : Type} [DecidableEq K] : List (K × V) → K → List (K × V)
  | [], _ => []
  | p :: rest, k => if p.1 = k then mapErase rest k else p :: mapErase rest k

/-- Insert (overwriting) into an association-list map (`HashMap::insert`). -/
def mapInsert {K V : Type} [DecidableEq K] (m : List (K × V)) (k : K) (v : V) :
    List (K × V) :=
  (k, v) :: mapErase m k

/-- The keys of an association-list map. -/
def mapKeys {K V : Type} (m : List (K × V)) : List K :=
  m.map Prod.fst

@[simp] theorem mapKeys_nil {K V : Type} : mapKeys ([] : List (K × V)) = [] := rfl

@[simp] theorem mapKeys_cons {K V : Type} (p : K × V) (rest : List (K × V)) :
    mapKeys (p :: rest) = p.1 :: mapKeys rest := rfl

@[simp] theorem mapLookup_nil {K V : Type} [DecidableEq K] (k : K) :
    mapLookup ([] : List (K × V)) k = none := rfl

@[simp] theorem mapLookup_cons {K V : Type} [DecidableEq K]
    (p : K × V) (rest : List (K × V)) (k : K) :
    mapLookup (p :: rest) k = if p.1 = k then some p.2 else mapLookup rest k := rfl

@[simp] theorem mapErase_nil {K V : Type} [DecidableEq K] (k : K) :
    mapErase ([] : List (K × V)) k = [] := rfl

@[simp] theorem mapErase_cons {K V : Type} [DecidableEq K]
    (p : K × V) (rest : List (K × V)) (k : K) :
    mapErase (p :: rest) k =
      if p.1 = k then mapErase rest k else p :: mapErase rest k := rfl

theorem mapLookup_erase {K V : Type} [DecidableEq K] (m : List (K × V)) (k k' : K) :
    mapLookup (mapErase m k) k' = if k' = k then none else mapLookup m k' := by
  induction m with
  | nil => simp
  | cons p rest ih =>
    simp only [mapErase_cons]
    by_cases hp : p.1 = k
    · rw [if_pos hp, ih]
      by_cases hk : k' = k
      · simp [hk]
      · have hne : p.1 ≠ k' := fun h => hk (by rw [← h, hp])
        simp [hk, hne]
    · rw [if_neg hp, mapLookup_cons]
      by_cases hpk : p.1 = k'
      · have hk : ¬ k' = k := fun h => hp (by rw [hpk, h])
        simp [hpk, hk]
      · simp [hpk, ih]

theorem mapLookup_insert {K V : Type} [DecidableEq K] (m : List (K × V)) (k k' : K) (v : V) :
    mapLookup (mapInsert m k v) k' = if k' = k then some v else mapLookup m k' := by
  unfold mapInsert
  by_cases hk : k' = k
  · simp [hk]
  · simp [Ne.symm hk, hk, mapLookup_erase]

theorem mapErase_sublist {K V : Type} [DecidableEq K] (m : List (K × V)) (k : K) :
    (mapErase m k).Sublist m := by
  induction m with
  | nil => simp
  | cons p rest ih =>
    by_cases hp : p.1 = k
    · simpa [hp] using ih.cons p
    · simpa [hp] using ih.cons₂ p

theorem mapErase_length_le {K V : Type} [DecidableEq K] (m : List (K × V)) (k : K) :
    (mapErase m k).length ≤ m.length :=
  (mapErase_sublist m k).length_le

theorem mapLookup_isSome_of_mem {K V : Type} [DecidableEq K]
    {m : List (K × V)} {p : K × V} (hmem : p ∈ m) :
    (mapLookup m p.1).isSome := by
  induction m with
  | nil => cases hmem
  | cons q rest ih =>
    rcases List.mem_cons.mp hmem with hq | hq
    · subst hq; simp
    · by_cases hk : q.1 = p.1 <;> simp [hk, ih hq]

theorem mapErase_length_lt {K V : Type} [DecidableEq K]
    {m : List (K × V)} {k : K} (h : (mapLookup m k).isSome) :
    (mapErase m k).length < m.length := by
  induction m with
  | nil => simp [mapLookup] at h
  | cons p rest ih =>
    by_cases hp : p.1 = k
    · simpa [hp] using Nat.lt_succ_of_le (mapErase_length_le rest k)
    · simp only [mapLookup_cons, hp, if_false] at h
      simpa [hp] using Nat.succ_lt_succ (ih h)

-- ── Content cache (src/fuse/cache.rs) ────────────────────────────────────────

/-- Maximum memory budget for the content cache, 256 MiB
(`MAX_CACHE_SIZE` in `fuse/cache.rs`). -/
def MAX_CACHE_SIZE : Nat := 256 * 1024 * 1024

/-- Cached decrypted file content entry with LRU tracking
(`CachedContent` in `fuse/cache.rs`). `Instant` timestamps are modelled as a
logical clock (`Nat`); each cache operation receives the current instant. -/
structure CachedContent where
  data : Bytes
  accessedAt : Nat
  size : Nat
deriving DecidableEq, Repr

/-- In-memory LRU cache for decrypted file content, keyed by CID
(`ContentCache` in `fuse/cache.rs`). -/
structure ContentCache where
  entries : List (String × CachedContent)
  currentSize : Nat
deriving DecidableEq, Repr

/-- `ContentCache::new`. -/
def ContentCache.new : ContentCache :=
  { entries := [], currentSize := 0 }

/-- The Rust `self.entries.iter().min_by_key(|(_, v)| v.accessed_at)`:
first entry (in iteration order) with minimal access time. -/
def minEntry : List (String × CachedContent) → Option (String × CachedContent)
  | [] => none
  | p :: rest =>
    match minEntry rest with
    | none => some p
    | some q => if q.2.accessedAt < p.2.accessedAt then some q else some p

theorem minEntry_isSome {l : List (String × CachedContent)} (h : l ≠ []) :
    (minEntry l).isSome := by
  cases l with
  | nil => exact absurd rfl h
  | cons p rest =>
    simp only [minEntry]
    cases minEntry rest with
    | none => rfl
    | some q =>
      by_cases hq : q.2.accessedAt < p.2.accessedAt <;> simp [hq]

theorem minEntry_mem : ∀ {l : List (String × CachedContent)} {p},
    minEntry l = some p → p ∈ l := by
  intro l
  induction l with
  | nil => intro p h; cases h
  | cons q rest ih =>
    intro p h
    simp only [minEntry] at h
    split at h
    · cases h
      exact List.mem_cons_self q rest
    · rename_i r hm
      split at h
      · cases h
        exact List.mem_cons_of_mem q (ih hm)
      · cases h
        exact List.mem_cons_self q rest

/-- `ContentCache::evict_lru`: remove the least-recently-accessed entry and
subtract its size (`saturating_sub` is `Nat` subtraction). -/
def ContentCache.evictLru (c : ContentCache) : ContentCache :=
  match minEntry c.entries with
  | none => c
  | some p =>
    { entries := mapErase c.entries p.1,
      currentSize := c.currentSize - p.2.size }

theorem evictLru_length_lt {c : ContentCache} (h : c.entries ≠ []) :
    (ContentCache.evictLru c).entries.length < c.entries.length := by
  unfold ContentCache.evictLru
  cases hm : minEntry c.entries with
  | none =>
    have := minEntry_isSome h
    rw [hm] at this
    cases this
  | some p =>
    have hmem := minEntry_mem hm
    simpa using mapErase_length_lt (mapLookup_isSome_of_mem hmem)

/-- The `while current_size + size > MAX_CACHE_SIZE && !entries.is_empty()`
eviction loop inside `ContentCache::set`. -/
def ContentCache.evictUntilFits (c : ContentCache) (size : Nat) : ContentCache :=
  if h : MAX_CACHE_SIZE < c.currentSize + size ∧ c.entries ≠ [] then
    ContentCache.evictUntilFits c.evictLru size
  else
    c
termination_by c.entries.length
decreasing_by exact evictLru_length_lt h.2

/-- The `if let Some(old) = self.entries.remove(cid)` step of `ContentCache::set`:
drop an existing entry for this CID and subtract its size. -/
def ContentCache.removeExisting (c : ContentCache) (cid : String) : ContentCache :=
  match mapLookup c.entries cid with
  | some old =>
    { entries := mapErase c.entries cid,
      currentSize := c.currentSize - old.size }
  | none => c

/-- `ContentCache::set(cid, data)` at logical instant `now`. -/
def ContentCache.set (c : ContentCache) (cid : String) (data : Bytes) (now : Nat) :
    ContentCache :=
  let size := data.length
  let c2 := (c.removeExisting cid).evictUntilFits size
  { entries := mapInsert c2.entries cid { data := data, accessedAt := now, size := size },
    currentSize := c2.currentSize + size }

/-- `ContentCache::get(cid)` at logical instant `now`: returns the cached data
and the cache with the entry's access time refreshed. -/
def ContentCache.get (c : ContentCache) (cid : String) (now : Nat) :
    Option Bytes × ContentCache :=
  match mapLookup c.entries cid with
  | some e =>
    (some e.data,
     { c with entries := mapInsert c.entries cid { e with accessedAt := now } })
  | none => (none, c)

/-- `ContentCache::clear`. -/
def ContentCache.clear (_ : ContentCache) : ContentCache :=
  { entries := [], currentSize := 0 }

/-- One public content-cache operation, tagged with the instant at which it runs. -/
inductive CacheOp where
  | set (cid : String) (data : Bytes) (now : Nat)
  | get (cid : String) (now : Nat)
  | clear
deriving Repr

/-- Apply one content-cache operation (the result of `get` is discarded). -/
def applyCacheOp (c : ContentCache) : CacheOp → ContentCache
  | .set cid data now => c.set cid data now
  | .get cid now => (c.get cid now).2
  | .clear => c.clear

/-- Run a sequence of content-cache operations from a starting state. -/
def runCacheOps (c : ContentCache) : List CacheOp → ContentCache
  | [] => c
  | op :: rest => runCacheOps (applyCacheOp c op) rest

/-- Sum of the `size` fields of the stored entries. -/
def sumSizes (entries : List (String × CachedContent)) : Nat :=
  (entries.map (fun p => p.2.size)).sum

-- ── Publish coordinator sequence cache (src/fuse/mod.rs) ─────────────────────

/-- The `seq_cache: Mutex<HashMap<String, u64>>` of `PublishCoordinator`. -/
abbrev SeqCache := List (String × Nat)

/-- `PublishCoordinator::get_cached`. -/
def getCached (st : SeqCache) (name : String) : Option Nat :=
  mapLookup st name

/-- `str::parse::<u64>`: optional sign, at least one digit, value below 2^64. -/
def parseU64 (s : String) : Option Nat :=
  let digits := if s.startsWith "+" then (s.toList.drop 1) else s.toList
  if digits ≠ [] ∧ digits.all Char.isDigit then
    let v := digits.foldl (fun acc c => acc * 10 + (c.toNat - 48)) 0
    if v < 2 ^ 64 then some v else none
  else
    none

/-- `PublishCoordinator::update_cache`: `entry(name).or_insert(0)`, then set to
`seq` only if `seq` is larger. -/
def updateCache (st : SeqCache) (name : String) (seq : Nat) : SeqCache :=
  let entry := (mapLookup st name).getD 0
  mapInsert st name (if entry < seq then seq else entry)

/-- `PublishCoordinator::resolve_sequence`. The network call
`resolve_ipns(api, name)` is external; its outcome is the `resp` argument:
`.ok s` is a response whose `sequence_number` string is `s`, `.error e` a
transport failure. Returns the result and the updated sequence cache. -/
def resolveSequence (st : SeqCache) (name : String) (resp : Except String String) :
    Except String Nat × SeqCache :=
  match resp with
  | .ok seqStr =>
    let resolved := (parseU64 seqStr).getD 0
    let cached := (getCached st name).getD 0
    let seq := max resolved cached
    (.ok seq, updateCache st name seq)
  | .error e =>
    match getCached st name with
    | some cached => (.ok cached, st)
    | none =>
      (.error ("IPNS resolve failed and no cached sequence for " ++ name ++ ": " ++ e), st)

/-- `PublishCoordinator::record_publish`. -/
def recordPublish (st : SeqCache) (name : String) (seq : Nat) : SeqCache :=
  updateCache st name seq

/-- One publish-coordinator operation touching the sequence cache. -/
inductive SeqOp where
  | resolve (name : String) (resp : Except String String)
  | publish (name : String) (seq : Nat)

/-- Apply one publish-coordinator operation to the sequence cache. -/
def applySeqOp (st : SeqCache) : SeqOp → SeqCache
  | .resolve name resp => (resolveSequence st name resp).2
  | .publish name seq => recordPublish st name seq

/-- Run a sequence of publish-coordinator operations. -/
def runSeqOps (st : SeqCache) : List SeqOp → SeqCache
  | [] => st
  | op :: rest => runSeqOps (applySeqOp st op) rest

-- ── Big-endian byte-string helpers ───────────────────────────────────────────

/-- n-byte big-endian encoding of a natural number (low bytes of x beyond
n bytes are cut off by the caller via an explicit mod). -/
def beBytes : Nat → Nat → Bytes
  | 0, _ => []
  | n + 1, x => beBytes n (x / 256) ++ [x % 256]

/-- Big-endian interpretation of a byte string (u64::from_be_bytes and the
128-bit block interpretation used by GHASH). -/
def fromBeBytes (l : Bytes) : Nat :=
  l.foldl (fun acc b => acc * 256 + b) 0

-- ── AES-256-CTR (src/crypto/aes_ctr.rs) ──────────────────────────────────────

/-- Error type of `crypto/aes_ctr.rs` (`AesCtrError`). -/
inductive AesCtrError where
  | InvalidKeySize
  | InvalidIvSize
  | EncryptionFailed
  | DecryptionFailed
  | InvalidRange
deriving DecidableEq, Repr

/-- Counter block i of `Ctr64BE`: nonce = IV bytes 0..7, counter = big-endian
u64 from IV bytes 8..15 plus the block index, wrapping mod 2^64. -/
def ctrBlock (iv : Bytes) (i : Nat) : Bytes :=
  iv.take 8 ++ beBytes 8 ((fromBeBytes (iv.drop 8) + i) % 2 ^ 64)

/-- Byte j of the `Aes256Ctr64BE` keystream: the block cipher E applied to
counter block j / 16, byte j % 16. E is the AES-256 block function supplied
by the external `aes` crate, abstract here. -/
def ctrKeystream (E : Bytes → Bytes → Bytes) (key iv : Bytes) (j : Nat) : Nat :=
  (E key (ctrBlock iv (j / 16))).getD (j % 16) 0

/-- `cipher.apply_keystream`: XOR the data with the keystream f starting at
stream position off. -/
def applyKeystream (f : Nat → Nat) : Nat → Bytes → Bytes
  | _, [] => []
  | off, b :: rest => (b ^^^ f off) :: applyKeystream f (off + 1) rest

/-- `encrypt_aes_ctr` (the Rust function's `Result` is always `Ok`; its only
error paths are unreachable for the fixed-size key/IV array types). -/
def encrypt_aes_ctr (E : Bytes → Bytes → Bytes) (plaintext key iv : Bytes) : Bytes :=
  applyKeystream (ctrKeystream E key iv) 0 plaintext

/-- `decrypt_aes_ctr`: CTR decrypt is identical to encrypt. -/
def decrypt_aes_ctr (E : Bytes → Bytes → Bytes) (ciphertext key iv : Bytes) : Bytes :=
  encrypt_aes_ctr E ciphertext key iv

/-- `decrypt_aes_ctr_range(ciphertext, key, iv, start_byte, end_byte)`. -/
def decrypt_aes_ctr_range (E : Bytes → Bytes → Bytes) (ciphertext key iv : Bytes)
    (startByte endByte : Nat) : Except AesCtrError Bytes :=
  if startByte > endByte then
    .error .InvalidRange
  else if ciphertext = [] ∨ startByte ≥ ciphertext.length then
    .ok []
  else
    let clampedEnd := min endByte (ciphertext.length - 1)
    if clampedEnd < startByte then
      .ok []
    else
      let startBlock := startByte / 16
      let endBlock := clampedEnd / 16
      let blockAlignedStart := startBlock * 16
      let blockAlignedEnd := min ((endBlock + 1) * 16) ciphertext.length
      let counter := iv.take 8 ++ beBytes 8 ((fromBeBytes (iv.drop 8) + startBlock) % 2 ^ 64)
      let window := (ciphertext.drop blockAlignedStart).take (blockAlignedEnd - blockAlignedStart)
      let decrypted := applyKeystream (ctrKeystream E key counter) 0 window
      let offsetInFirstBlock := startByte - blockAlignedStart
      let requestedLength := clampedEnd - startByte + 1
      .ok ((decrypted.drop offsetInFirstBlock).take requestedLength)

-- ── AES-256-GCM (src/crypto/aes.rs, via the external aes-gcm crate) ──────────

/-- Error type of `crypto/aes.rs` (`AesError`). -/
inductive AesError where
  | EncryptionFailed
  | DecryptionFailed
  | InvalidKeySize
  | InvalidIvSize
deriving DecidableEq, Repr

/-- GCM counter block for data block i with a 96-bit IV: J0 = IV ‖ 0^31 ‖ 1,
and data block i is encrypted with inc32 applied i+1 times to J0, i.e. the
last 32 bits hold 2 + i mod 2^32. -/
def gcmCtrBlock (iv : Bytes) (i : Nat) : Bytes :=
  iv ++ beBytes 4 ((2 + i) % 2 ^ 32)

/-- Byte j of the GCM CTR keystream. -/
def gcmKeystream (E : Bytes → Bytes → Bytes) (key iv : Bytes) (j : Nat) : Nat :=
  (E key (gcmCtrBlock iv (j / 16))).getD (j % 16) 0

/-- Multiplication in GF(2^128) with the GCM reduction polynomial
(NIST SP 800-38D algorithm 1); blocks are 128-bit big-endian naturals,
bit 0 of the spec is the most significant bit. -/
def gfMul (x y : Nat) : Nat :=
  ((List.range 128).foldl
    (fun zv i =>
      let z := if x.testBit (127 - i) then zv.1 ^^^ zv.2 else zv.1
      let v := if zv.2.testBit 0 then (zv.2 >>> 1) ^^^ (0xe1 <<< 120) else zv.2 >>> 1
      (z, v))
    (0, y)).1

/-- Split a byte string into 128-bit blocks, zero-padding the last one. -/
def toBlocks : Bytes → List Nat
  | [] => []
  | b :: rest =>
    fromBeBytes (((b :: rest).take 16)
        ++ List.replicate (16 - ((b :: rest).take 16).length) 0)
      :: toBlocks ((b :: rest).drop 16)
termination_by l => l.length
decreasing_by simp; omega

/-- GHASH over a block sequence with hash subkey h. -/
def ghashBlocks (h : Nat) (blocks : List Nat) : Nat :=
  blocks.foldl (fun y x => gfMul (y ^^^ x) h) 0

/-- The GCM authentication tag over a ciphertext (no associated data, as in
the aes-gcm crate's plain encrypt/decrypt): S = GHASH_H(C ‖ pad ‖ len64(A)=0
‖ len64(8·|C|)), tag = E(J0) XOR S. -/
def gcmTag (E : Bytes → Bytes → Bytes) (key iv ct : Bytes) : Bytes :=
  let h := fromBeBytes (E key (List.replicate 16 0))
  let j0 := iv ++ beBytes 4 1
  let s := ghashBlocks h (toBlocks ct ++ [(8 * ct.length) % 2 ^ 64])
  List.zipWith Nat.xor (E key j0) (beBytes 16 s)

/-- `encrypt_aes_gcm`: returns ciphertext with the 16-byte tag appended
(the aes-gcm crate's `encrypt`). -/
def encrypt_aes_gcm (E : Bytes → Bytes → Bytes) (plaintext key iv : Bytes) : Bytes :=
  let ct := applyKeystream (gcmKeystream E key iv) 0 plaintext
  ct ++ gcmTag E key iv ct

/-- `decrypt_aes_gcm`: expects ciphertext with the 16-byte tag appended;
fails with DecryptionFailed when the input is too short or the recomputed
tag differs (the aes-gcm crate's `decrypt`). -/
def decrypt_aes_gcm (E : Bytes → Bytes → Bytes) (ciphertext key iv : Bytes) :
    Except AesError Bytes :=
  if ciphertext.length < 16 then
    .error .DecryptionFailed
  else
    let ct := ciphertext.take (ciphertext.length - 16)
    let tag := ciphertext.drop (ciphertext.length - 16)
    if tag = gcmTag E key iv ct then
      .ok (applyKeystream (gcmKeystream E key iv) 0 ct)
    else
      .error .DecryptionFailed

/-- `seal_aes_gcm(plaintext, key)`: the fresh random 12-byte nonce from
`generate_iv()` (OS randomness, external) is the explicit iv argument.
Returns IV ‖ ciphertext ‖ tag. -/
def seal_aes_gcm (E : Bytes → Bytes → Bytes) (plaintext key iv : Bytes) : Bytes :=
  iv ++ encrypt_aes_gcm E plaintext key iv

/-- `unseal_aes_gcm(sealed, key)`: rejects inputs shorter than
MIN_SEALED_SIZE = 12 + 16 = 28 bytes, then splits off the IV and decrypts. -/
def unseal_aes_gcm (E : Bytes → Bytes → Bytes) (sealed key : Bytes) :
    Except AesError Bytes :=
  if sealed.length < 28 then
    .error .DecryptionFailed
  else
    decrypt_aes_gcm E (sealed.drop 12) key (sealed.take 12)

-- ── Ed25519 wrappers (src/crypto/ed25519.rs) ─────────────────────────────────

/-- Error type of `crypto/ed25519.rs` (`Ed25519Error`). -/
inductive Ed25519Error where
  | SigningFailed
  | InvalidPrivateKeySize
  | InvalidPublicKey
deriving DecidableEq, Repr

/-- The primitives of the external ed25519-dalek crate, abstract here:
`parseVerifyingKey` is `VerifyingKey::from_bytes` (fails on invalid point
encodings), `verifyingKeyOf` is `SigningKey::from_bytes(seed).verifying_key().to_bytes()`,
`sign` is the deterministic `SigningKey::sign`, and `verify` is
`VerifyingKey::verify(message, signature).is_ok()`. -/
structure Ed25519Backend where
  parseVerifyingKey : Bytes → Option Bytes
  verifyingKeyOf : Bytes → Bytes
  sign : Bytes → Bytes → Bytes
  verify : Bytes → Bytes → Bytes → Bool

/-- `sign_ed25519(message, private_key)`. -/
def sign_ed25519 (B : Ed25519Backend) (message privateKey : Bytes) :
    Except Ed25519Error Bytes :=
  if privateKey.length ≠ 32 then
    .error .InvalidPrivateKeySize
  else
    .ok (B.sign privateKey message)

/-- `verify_ed25519(message, signature, public_key)`: total, returns a Bool
for every input; wrong sizes and unparseable keys yield false. -/
def verify_ed25519 (B : Ed25519Backend) (message signature publicKey : Bytes) : Bool :=
  if signature.length ≠ 64 ∨ publicKey.length ≠ 32 then
    false
  else
    match B.parseVerifyingKey publicKey with
    | none => false
    | some vk => B.verify vk message signature

/-- `get_public_key(private_key)`. -/
def get_public_key (B : Ed25519Backend) (privateKey : Bytes) :
    Except Ed25519Error Bytes :=
  if privateKey.length ≠ 32 then
    .error .InvalidPrivateKeySize
  else
    .ok (B.verifyingKeyOf privateKey)

-- ── Folder metadata decoding (src/crypto/folder.rs) ──────────────────────────

/-- Error type of `crypto/folder.rs` (`FolderError`); the `AesError` payload
of `EncryptionFailed` is dropped. -/
inductive FolderError where
  | EncryptionFailed
  | SerializationFailed
  | DeserializationFailed
deriving DecidableEq, Repr

/-- A serde_json `Value`; numbers are restricted to the unsigned 64-bit
naturals the manifest schema uses. -/
inductive Json where
  | null
  | bool (b : Bool)
  | num (n : Nat)
  | str (s : String)
  | arr (items : List Json)
  | obj (fields : List (String × Json))

/-- `Value::get(key)` on an object. -/
def Json.getField : Json → String → Option Json
  | .obj fields, key => mapLookup fields key
  | _, _ => none

/-- `Value::as_str`. -/
def Json.asStr : Json → Option String
  | .str s => some s
  | _ => none

/-- `FolderEntry` of `crypto/folder.rs` (serde camelCase field names). -/
structure FolderEntry where
  id : String
  name : String
  ipnsName : String
  folderKeyEncrypted : String
  ipnsPrivateKeyEncrypted : String
  createdAt : Nat
  modifiedAt : Nat
deriving DecidableEq, Repr

/-- `FileEntry` of `crypto/folder.rs`. -/
structure FileEntry where
  id : String
  name : String
  cid : String
  fileKeyEncrypted : String
  fileIv : String
  size : Nat
  createdAt : Nat
  modifiedAt : Nat
  encryptionMode : String
deriving DecidableEq, Repr

/-- `FolderChild` (internally tagged enum, tag field "type", lowercase). -/
inductive FolderChild where
  | folder (e : FolderEntry)
  | file (e : FileEntry)
deriving DecidableEq, Repr

/-- `FolderMetadata`. -/
structure FolderMetadata where
  version : String
  children : List FolderChild
deriving DecidableEq, Repr

/-- `FilePointer` of v2 folder metadata. -/
structure FilePointer where
  id : String
  name : String
  fileMetaIpnsName : String
  createdAt : Nat
  modifiedAt : Nat
deriving DecidableEq, Repr

/-- `FolderChildV2`. -/
inductive FolderChildV2 where
  | folder (e : FolderEntry)
  | file (p : FilePointer)
deriving DecidableEq, Repr

/-- `FolderMetadataV2`. -/
structure FolderMetadataV2 where
  version : String
  children : List FolderChildV2
deriving DecidableEq, Repr

/-- `AnyFolderMetadata`. -/
inductive AnyFolderMetadata where
  | v1 (m : FolderMetadata)
  | v2 (m : FolderMetadataV2)
deriving DecidableEq, Repr

/-- serde: required string field. -/
def jsonString (j : Json) (key : String) : Option String :=
  (j.getField key).bind Json.asStr

/-- serde: required u64 field. -/
def jsonNat (j : Json) (key : String) : Option Nat :=
  (j.getField key).bind fun v =>
    match v with
    | .num n => some n
    | _ => none

/-- serde deserialization of `FolderEntry` from a JSON value (unknown fields
ignored, all listed fields required, camelCase names). -/
def fromValueFolderEntry (j : Json) : Option FolderEntry := do
  let id ← jsonString j "id"
  let name ← jsonString j "name"
  let ipnsName ← jsonString j "ipnsName"
  let folderKeyEncrypted ← jsonString j "folderKeyEncrypted"
  let ipnsPrivateKeyEncrypted ← jsonString j "ipnsPrivateKeyEncrypted"
  let createdAt ← jsonNat j "createdAt"
  let modifiedAt ← jsonNat j "modifiedAt"
  pure ⟨id, name, ipnsName, folderKeyEncrypted, ipnsPrivateKeyEncrypted,
        createdAt, modifiedAt⟩

/-- serde deserialization of `FileEntry`. -/
def fromValueFileEntry (j : Json) : Option FileEntry := do
  let id ← jsonString j "id"
  let name ← jsonString j "name"
  let cid ← jsonString j "cid"
  let fileKeyEncrypted ← jsonString j "fileKeyEncrypted"
  let fileIv ← jsonString j "fileIv"
  let size ← jsonNat j "size"
  let createdAt ← jsonNat j "createdAt"
  let modifiedAt ← jsonNat j "modifiedAt"
  let encryptionMode ← jsonString j "encryptionMode"
  pure ⟨id, name, cid, fileKeyEncrypted, fileIv, size, createdAt, modifiedAt,
        encryptionMode⟩

/-- serde deserialization of `FilePointer`. -/
def fromValueFilePointer (j : Json) : Option FilePointer := do
  let id ← jsonString j "id"
  let name ← jsonString j "name"
  let fileMetaIpnsName ← jsonString j "fileMetaIpnsName"
  let createdAt ← jsonNat j "createdAt"
  let modifiedAt ← jsonNat j "modifiedAt"
  pure ⟨id, name, fileMetaIpnsName, createdAt, modifiedAt⟩

/-- serde deserialization of `FolderChild` (internally tagged by "type"). -/
def fromValueFolderChild (j : Json) : Option FolderChild := do
  let tag ← jsonString j "type"
  match tag with
  | "folder" => (fromValueFolderEntry j).map FolderChild.folder
  | "file" => (fromValueFileEntry j).map FolderChild.file
  | _ => none

/-- serde deserialization of `FolderChildV2`. -/
def fromValueFolderChildV2 (j : Json) : Option FolderChildV2 := do
  let tag ← jsonString j "type"
  match tag with
  | "folder" => (fromValueFolderEntry j).map FolderChildV2.folder
  | "file" => (fromValueFilePointer j).map FolderChildV2.file
  | _ => none

/-- serde deserialization of `FolderMetadata` (`serde_json::from_value`). -/
def fromValueFolderMetadata (j : Json) : Option FolderMetadata := do
  let version ← jsonString j "version"
  let childrenJson ← j.getField "children"
  match childrenJson with
  | .arr items => do
    let children ← items.mapM fromValueFolderChild
    pure ⟨version, children⟩
  | _ => none

/-- serde deserialization of `FolderMetadataV2`. -/
def fromValueFolderMetadataV2 (j : Json) : Option FolderMetadataV2 := do
  let version ← jsonString j "version"
  let childrenJson ← j.getField "children"
  match childrenJson with
  | .arr items => do
    let children ← items.mapM fromValueFolderChildV2
    pure ⟨version, children⟩
  | _ => none

/-- The version dispatch of `decrypt_any_folder_metadata` (folder.rs lines
258–291): parse the decrypted JSON generically, look at the "version" field;
"v2" tries the strict v2 schema and falls back to v1 on failure; every other
version (or a missing/non-string version) is parsed as v1 for backward
compatibility; DeserializationFailed only when the applicable schemas fail. -/
def decodeAnyFolderValue (value : Json) : Except FolderError AnyFolderMetadata :=
  match (value.getField "version").bind Json.asStr with
  | some "v2" =>
    match fromValueFolderMetadataV2 value with
    | some v2 => .ok (.v2 v2)
    | none =>
      match fromValueFolderMetadata value with
      | some v1 => .ok (.v1 v1)
      | none => .error .DeserializationFailed
  | _ =>
    match fromValueFolderMetadata value with
    | some v1 => .ok (.v1 v1)
    | none => .error .DeserializationFailed

/-- `decrypt_any_folder_metadata(sealed, folder_key)`: unseal with AES-GCM,
parse the plaintext as JSON (`serde_json::from_slice`, an external crate,
supplied as the parse argument), then dispatch on the version field. -/
def decrypt_any_folder_metadata (E : Bytes → Bytes → Bytes)
    (parse : Bytes → Except FolderError Json)
    (sealed key : Bytes) : Except FolderError AnyFolderMetadata :=
  match unseal_aes_gcm E sealed key with
  | .error _ => .error .EncryptionFailed
  | .ok json =>
    match parse json with
    | .error _ => .error .DeserializationFailed
    | .ok value => decodeAnyFolderValue value

-- ── Inode table (src/fuse/inode.rs) ──────────────────────────────────────────

/-- Root inode number (`ROOT_INO`). -/
def ROOT_INO : Nat := 1

/-- Default block size (`BLOCK_SIZE`). -/
def BLOCK_SIZE : Nat := 4096

/-- The fuser crate's `FileType` as used by the engine. -/
inductive FileKind where
  | directory
  | regularFile
deriving DecidableEq, Repr

/-- The fuser crate's `FileAttr`; `SystemTime` values are Unix milliseconds. -/
structure FileAttr where
  ino : Nat
  size : Nat
  blocks : Nat
  atime : Nat
  mtime : Nat
  ctime : Nat
  crtime : Nat
  kind : FileKind
  perm : Nat
  nlink : Nat
  uid : Nat
  gid : Nat
  rdev : Nat
  blksize : Nat
  flags : Nat
deriving DecidableEq, Repr

/-- `InodeKind` of `fuse/inode.rs`; decrypted keys are byte strings. -/
inductive InodeKind where
  | root (ipnsPrivateKey : Option Bytes) (ipnsName : Option String)
  | folder (ipnsName : String) (encryptedFolderKey : String) (folderKey : Bytes)
      (ipnsPrivateKey : Option Bytes) (childrenLoaded : Bool)
  | file (cid : String) (encryptedFileKey : String) (iv : String) (size : Nat)
      (encryptionMode : String) (fileMetaIpnsName : Option String)
      (fileMetaResolved : Bool)
deriving DecidableEq, Repr

/-- `InodeData` of `fuse/inode.rs`. -/
structure InodeData where
  ino : Nat
  parentIno : Nat
  name : String
  kind : InodeKind
  attr : FileAttr
  children : Option (List Nat)
deriving DecidableEq, Repr

/-- `InodeTable` of `fuse/inode.rs`: inode map, (parent, name) index, and the
atomic allocation counter. -/
structure InodeTable where
  inodes : List (Nat × InodeData)
  nameToIno : List ((Nat × String) × Nat)
  nextIno : Nat
deriving DecidableEq, Repr

/-- `InodeTable::new()` with the process uid/gid and the current time. -/
def InodeTable.new (uid gid now : Nat) : InodeTable :=
  let rootAttr : FileAttr :=
    { ino := ROOT_INO, size := 0, blocks := 0, atime := now, mtime := now,
      ctime := now, crtime := now, kind := .directory, perm := 493, nlink := 2,
      uid := uid, gid := gid, rdev := 0, blksize := BLOCK_SIZE, flags := 0 }
  let root : InodeData :=
    { ino := ROOT_INO, parentIno := ROOT_INO, name := "",
      kind := .root none none, attr := rootAttr, children := some [] }
  { inodes := [(ROOT_INO, root)], nameToIno := [], nextIno := 2 }

/-- `InodeTable::allocate_ino`: returns the fresh number and the bumped table. -/
def InodeTable.allocateIno (t : InodeTable) : Nat × InodeTable :=
  (t.nextIno, { t with nextIno := t.nextIno + 1 })

/-- `InodeTable::insert`: update both the inode map and the name index.
The index key is the verbatim (parent_ino, name) pair — no normalization. -/
def InodeTable.insert (t : InodeTable) (data : InodeData) : InodeTable :=
  { t with
    nameToIno := mapInsert t.nameToIno (data.parentIno, data.name) data.ino,
    inodes := mapInsert t.inodes data.ino data }

/-- `InodeTable::find_child(parent_ino, name)`: a verbatim index lookup of
(parent_ino, name.to_string()) — the name is not NFC-normalized. -/
def InodeTable.findChild (t : InodeTable) (parentIno : Nat) (name : String) :
    Option Nat :=
  mapLookup t.nameToIno (parentIno, name)

/-- The name of a manifest child (`FolderChild`). -/
def childName : FolderChild → String
  | .folder f => f.name
  | .file f => f.name

/-- `hex::decode` of a single hex digit. -/
def hexVal (c : Char) : Option Nat :=
  if '0' ≤ c ∧ c ≤ '9' then some (c.toNat - 48)
  else if 'a' ≤ c ∧ c ≤ 'f' then some (c.toNat - 87)
  else if 'A' ≤ c ∧ c ≤ 'F' then some (c.toNat - 55)
  else none

/-- `hex::decode` over a character list (fails on odd length or bad digit). -/
def hexDecodeChars : List Char → Option Bytes
  | [] => some []
  | [_] => none
  | c1 :: c2 :: rest => do
    let hi ← hexVal c1
    let lo ← hexVal c2
    let tail ← hexDecodeChars rest
    pure ((hi * 16 + lo) :: tail)

/-- `hex::decode`. -/
def hexDecode (s : String) : Option Bytes :=
  hexDecodeChars s.toList

/-- One iteration of the populate loop over `metadata.children` (fuse/inode.rs
lines 254–391): reuse the existing inode number when `find_child` hits,
otherwise allocate a fresh one; subfolders unwrap their two ECIES-wrapped keys
(`unwrapKey` is `ecies::unwrap_key(·, user_private_key)`, an external
secp256k1 primitive) and preserve a previously loaded children list; files
store the inline manifest data with `file_meta_resolved = true`. Returns the
updated table and the child's inode number. -/
def populateChild (t : InodeTable) (parentIno uid gid : Nat)
    (unwrapKey : Bytes → Except String Bytes) :
    FolderChild → Except String (InodeTable × Nat)
  | .folder f =>
    let existingIno := t.findChild parentIno f.name
    let allocated := match existingIno with
      | some i => (i, t)
      | none => t.allocateIno
    let ino := allocated.1
    let t0 := allocated.2
    match hexDecode f.folderKeyEncrypted with
    | none =>
      .error ("Invalid folderKeyEncrypted hex for folder '" ++ f.name ++ "'")
    | some encFolderKeyBytes =>
      match unwrapKey encFolderKeyBytes with
      | .error e =>
        .error ("Failed to decrypt folder key for '" ++ f.name ++ "': " ++ e)
      | .ok folderKey =>
        match hexDecode f.ipnsPrivateKeyEncrypted with
        | none =>
          .error ("Invalid ipnsPrivateKeyEncrypted hex for folder '" ++ f.name ++ "'")
        | some encIpnsKeyBytes =>
          match unwrapKey encIpnsKeyBytes with
          | .error e =>
            .error ("Failed to decrypt IPNS private key for '" ++ f.name ++ "': " ++ e)
          | .ok ipnsPrivateKey =>
            let preserved := if existingIno.isSome then
                match mapLookup t0.inodes ino with
                | some old =>
                  (old.children,
                   match old.kind with
                   | .folder _ _ _ _ cl => cl
                   | _ => false)
                | none => (none, false)
              else (some [], false)
            let attr : FileAttr :=
              { ino := ino, size := 0, blocks := 0, atime := f.modifiedAt,
                mtime := f.modifiedAt, ctime := f.modifiedAt, crtime := f.createdAt,
                kind := .directory, perm := 493, nlink := 2, uid := uid, gid := gid,
                rdev := 0, blksize := BLOCK_SIZE, flags := 0 }
            let inode : InodeData :=
              { ino := ino, parentIno := parentIno, name := f.name,
                kind := .folder f.ipnsName f.folderKeyEncrypted folderKey
                  (some ipnsPrivateKey) preserved.2,
                attr := attr, children := preserved.1 }
            .ok (t0.insert inode, ino)
  | .file f =>
    let existingIno := t.findChild parentIno f.name
    let allocated := match existingIno with
      | some i => (i, t)
      | none => t.allocateIno
    let ino := allocated.1
    let t0 := allocated.2
    let attr : FileAttr :=
      { ino := ino, size := f.size, blocks := (f.size + 511) / 512,
        atime := f.modifiedAt, mtime := f.modifiedAt, ctime := f.modifiedAt,
        crtime := f.createdAt, kind := .regularFile, perm := 420, nlink := 1,
        uid := uid, gid := gid, rdev := 0, blksize := BLOCK_SIZE, flags := 0 }
    let inode : InodeData :=
      { ino := ino, parentIno := parentIno, name := f.name,
        kind := .file f.cid f.fileKeyEncrypted f.fileIv f.size f.encryptionMode
          none true,
        attr := attr, children := none }
    .ok (t0.insert inode, ino)

/-- The populate loop over all manifest children, collecting the new child
inode list in order. -/
def populateChildren (parentIno uid gid : Nat)
    (unwrapKey : Bytes → Except String Bytes) :
    InodeTable → List FolderChild → Except String (InodeTable × List Nat)
  | t, [] => .ok (t, [])
  | t, c :: rest =>
    match populateChild t parentIno uid gid unwrapKey c with
    | .error e => .error e
    | .ok step =>
      match populateChildren parentIno uid gid unwrapKey step.1 rest with
      | .error e => .error e
      | .ok tail => .ok (tail.1, step.2 :: tail.2)

/-- The removal pass of populate (fuse/inode.rs lines 241–250): drop existing
children whose names are absent from the new manifest, from both maps. -/
def removeAbsentChildren (parentIno : Nat) (newNames : List String)
    (oldChildInos : List Nat) (t : InodeTable) : InodeTable :=
  oldChildInos.foldl
    (fun acc oldIno =>
      match mapLookup acc.inodes oldIno with
      | some oldChild =>
        if oldChild.name ∈ newNames then acc
        else
          { acc with
            inodes := mapErase acc.inodes oldIno,
            nameToIno := mapErase acc.nameToIno (parentIno, oldChild.name) }
      | none => acc)
    t

/-- Modelled from the spec: the four-argument
`InodeTable::populate_folder(parent_ino, metadata, private_key, merge_only)`
called from operations.rs line 172 is not under src/ — src/fuse/inode.rs holds
the three-argument iteration without `merge_only`, which always removes. For
`merge_only = false` this definition follows src/fuse/inode.rs lines 218–421
exactly: build the manifest name set, remove existing children whose names are
absent, process each manifest child reusing ids by name, then set the parent's
children list, bump mtime/ctime iff the child list changed, and mark the
parent loaded. For `merge_only = true` it follows the spec's words: the
removal pass is skipped and existing children whose names are absent from the
manifest are preserved in the parent's child list, so a background refresh
never drops an entry. `now` is the SystemTime::now() used for the mtime bump;
uid/gid are the process ids. -/
def InodeTable.populateFolder (t : InodeTable) (parentIno : Nat)
    (metadata : FolderMetadata) (unwrapKey : Bytes → Except String Bytes)
    (uid gid now : Nat) (mergeOnly : Bool) : Except String InodeTable :=
  let newNames := metadata.children.map childName
  let oldChildInos := ((mapLookup t.inodes parentIno).bind InodeData.children).getD []
  let t1 := if mergeOnly then t
    else removeAbsentChildren parentIno newNames oldChildInos t
  match populateChildren parentIno uid gid unwrapKey t1 metadata.children with
  | .error e => .error e
  | .ok result =>
  let t2 := result.1
  let childInos := result.2
  match mapLookup t2.inodes parentIno with
  | none => .ok t2
  | some parent =>
    let oldChildren := parent.children.getD []
    let finalChildren := if mergeOnly then
        childInos ++ oldChildren.filter (fun i =>
          match mapLookup t2.inodes i with
          | some d => decide (d.name ∉ newNames)
          | none => false)
      else childInos
    let childrenChanged :=
      oldChildren.length ≠ finalChildren.length ∨ oldChildren ≠ finalChildren
    let attr := if childrenChanged then
        { parent.attr with mtime := now, ctime := now }
      else parent.attr
    let kind := match parent.kind with
      | .folder a b c d _ => InodeKind.folder a b c d true
      | k => k
    .ok { t2 with
      inodes := mapInsert t2.inodes parentIno
        { parent with attr := attr, children := some finalChildren, kind := kind } }

/-- The list of child inode numbers recorded on a directory inode. -/
def parentChildren (t : InodeTable) (parentIno : Nat) : List Nat :=
  ((mapLookup t.inodes parentIno).bind InodeData.children).getD []

/-- The names of the children recorded on a directory inode (child ids that
resolve in the inode map, mapped to their stored names). -/
def childNames (t : InodeTable) (parentIno : Nat) : List String :=
  (parentChildren t parentIno).filterMap
    (fun i => (mapLookup t.inodes i).map InodeData.name)

/-- The well-formedness facts about an inode table around one parent that the
populate proofs rest on; they are the spec's own data-model invariants:
the allocation counter is ahead of the root and of every indexed id, the
(parent, name) index is injective into ids for this parent, and each recorded
child resolves to an inode of this parent that the index maps back to its id. -/
def PopulateWF (t : InodeTable) (parentIno : Nat) : Prop :=
  parentIno < t.nextIno
  ∧ (∀ n i, mapLookup t.nameToIno (parentIno, n) = some i →
      i < t.nextIno ∧ i ≠ parentIno)
  ∧ (∀ n n' i, mapLookup t.nameToIno (parentIno, n) = some i →
      mapLookup t.nameToIno (parentIno, n') = some i → n = n')

/-- The spec's index/children bijection invariant for one parent: every
recorded child id resolves to an inode of this parent whose name the index
maps back to the id. -/
def ChildrenWF (t : InodeTable) (parentIno : Nat) : Prop :=
  ∀ i, i ∈ parentChildren t parentIno →
    ∃ d, mapLookup t.inodes i = some d ∧ d.parentIno = parentIno
      ∧ mapLookup t.nameToIno (parentIno, d.name) = some i

/-- A concrete stand-in backend used to instantiate the Ed25519 contract in
witnesses: a verifying key parses to itself, the verifying key of a seed is
the seed, and a signature is valid iff it equals seed ++ seed. -/
def toyEd25519 : Ed25519Backend where
  parseVerifyingKey := fun b => some b
  verifyingKeyOf := fun seed => seed
  sign := fun seed _ => seed ++ seed
  verify := fun vk _ sig => decide (sig = vk ++ vk)

/-- Size-accounting invariant of the content cache (claim C10):
keys are unique and `current_size` is the sum of the stored entry sizes. -/
def cacheInv (c : ContentCache) : Prop :=
  (mapKeys c.entries).Nodup ∧ c.currentSize = sumSizes c.entries

/-- A concrete one-file manifest used in witnesses. -/
def exampleFileEntry : FileEntry :=
  { id := "id1", name := "hello.txt", cid := "cid1", fileKeyEncrypted := "aa",
    fileIv := "bb", size := 100, createdAt := 1, modifiedAt := 2,
    encryptionMode := "GCM" }

/-- A concrete manifest with a single file child, used in witnesses. -/
def exampleManifest : FolderMetadata :=
  { version := "v2", children := [FolderChild.file exampleFileEntry] }

/-- The precomposed (NFC) spelling of the name é: the single code point
U+00E9 (233). -/
def nfcName : String := String.mk [Char.ofNat 233]

/-- The decomposed (NFD) spelling of the same name: the letter e (101)
followed by the combining acute accent U+0301 (769). The peer layer may send
this form on lookup. -/
def nfdName : String := String.mk [Char.ofNat 101, Char.ofNat 769]

/-- A concrete file inode named with the NFC spelling, as the engine stores it
when a manifest entry carries that name. -/
def nfcNamedChild : InodeData :=
  let attr : FileAttr :=
    { ino := 2, size := 0, blocks := 0, atime := 0, mtime := 0,
      ctime := 0, crtime := 0, kind := .regularFile, perm := 420, nlink := 1,
      uid := 0, gid := 0, rdev := 0, blksize := BLOCK_SIZE, flags := 0 }
  { ino := 2, parentIno := 1, name := nfcName,
    kind := .file "cid1" "aa" "bb" 0 "GCM" none false,
    attr := attr, children := none }

-- ── Supporting lemmas: cache bookkeeping ─────────────────────────────────────

theorem mapErase_of_not_mem {K V : Type} [DecidableEq K]
    {m : List (K × V)} {k : K} (h : k ∉ mapKeys m) : mapErase m k = m := by
  induction m with
  | nil => rfl
  | cons p rest ih =>
    simp only [mapKeys_cons, List.mem_cons] at h
    push_neg at h
    simp [Ne.symm h.1, ih h.2]

theorem not_mem_mapKeys_erase {K V : Type} [DecidableEq K]
    (m : List (K × V)) (k : K) : k ∉ mapKeys (mapErase m k) := by
  induction m with
  | nil => simp
  | cons p rest ih =>
    by_cases hp : p.1 = k
    · simpa [hp] using ih
    · simpa [hp, Ne.symm hp] using ih

theorem mapKeys_erase_sublist {K V : Type} [DecidableEq K]
    (m : List (K × V)) (k : K) : (mapKeys (mapErase m k)).Sublist (mapKeys m) :=
  (mapErase_sublist m k).map Prod.fst

theorem nodup_mapKeys_erase {K V : Type} [DecidableEq K]
    {m : List (K × V)} (k : K) (h : (mapKeys m).Nodup) :
    (mapKeys (mapErase m k)).Nodup :=
  (mapKeys_erase_sublist m k).nodup h

theorem nodup_mapKeys_insert {K V : Type} [DecidableEq K]
    {m : List (K × V)} (k : K) (v : V) (h : (mapKeys m).Nodup) :
    (mapKeys (mapInsert m k v)).Nodup := by
  simp only [mapInsert, mapKeys_cons]
  exact List.Nodup.cons (not_mem_mapKeys_erase m k) (nodup_mapKeys_erase k h)

theorem mem_mapKeys_of_mem {K V : Type} {m : List (K × V)} {p : K × V}
    (hmem : p ∈ m) : p.1 ∈ mapKeys m :=
  List.mem_map_of_mem Prod.fst hmem

theorem mapLookup_eq_of_mem_nodup {K V : Type} [DecidableEq K]
    {m : List (K × V)} {p : K × V} (hnd : (mapKeys m).Nodup) (hmem : p ∈ m) :
    mapLookup m p.1 = some p.2 := by
  induction m with
  | nil => cases hmem
  | cons q rest ih =>
    simp only [mapKeys_cons, List.nodup_cons] at hnd
    rcases List.mem_cons.mp hmem with hq | hq
    · subst hq; simp
    · have hne : q.1 ≠ p.1 := by
        intro hk
        exact hnd.1 (hk ▸ mem_mapKeys_of_mem hq)
      simpa [hne] using ih hnd.2 hq

theorem sumSizes_erase {l : List (String × CachedContent)} {k : String} {v : CachedContent}
    (hnd : (mapKeys l).Nodup) (hl : mapLookup l k = some v) :
    sumSizes l = sumSizes (mapErase l k) + v.size := by
  induction l with
  | nil => cases hl
  | cons q rest ih =>
    simp only [mapKeys_cons, List.nodup_cons] at hnd
    by_cases hq : q.1 = k
    · subst hq
      simp at hl
      have herase : mapErase rest q.1 = rest := mapErase_of_not_mem hnd.1
      rw [mapErase_cons, if_pos rfl, herase]
      subst hl
      simp only [sumSizes, List.map_cons, List.sum_cons]
      omega
    · simp only [mapLookup_cons, hq, if_false] at hl
      have hrec := ih hnd.2 hl
      simp only [mapErase_cons, hq, if_false, sumSizes, List.map_cons,
        List.sum_cons] at hrec ⊢
      omega

theorem cacheInv_new : cacheInv ContentCache.new :=
  ⟨List.nodup_nil, rfl⟩

theorem cacheInv_evictLru {c : ContentCache} (h : cacheInv c) :
    cacheInv c.evictLru := by
  unfold ContentCache.evictLru
  split
  · exact h
  · rename_i p hm
    have hmem := minEntry_mem hm
    have hl : mapLookup c.entries p.1 = some p.2 :=
      mapLookup_eq_of_mem_nodup h.1 hmem
    refine ⟨nodup_mapKeys_erase p.1 h.1, ?_⟩
    have hse := sumSizes_erase h.1 hl
    simp only
    rw [h.2, hse]
    omega

theorem evictUntilFits_preserves (P : ContentCache → Prop)
    (hstep : ∀ c, P c → P c.evictLru) (size : Nat) :
    ∀ c, P c → P (c.evictUntilFits size) := by
  have H : ∀ (n : Nat) (c : ContentCache), c.entries.length = n →
      P c → P (c.evictUntilFits size) := by
    intro n
    induction n using Nat.strong_induction_on with
    | _ n ih =>
      intro c hn hP
      rw [ContentCache.evictUntilFits]
      split
      · rename_i hcond
        exact ih _ (hn ▸ evictLru_length_lt hcond.2) _ rfl (hstep _ hP)
      · exact hP
  exact fun c => H c.entries.length c rfl

theorem cacheInv_evictUntilFits {c : ContentCache} (size : Nat) (h : cacheInv c) :
    cacheInv (c.evictUntilFits size) :=
  evictUntilFits_preserves cacheInv (fun _ => cacheInv_evictLru) size c h

theorem evictLru_entries_sublist (c : ContentCache) :
    c.evictLru.entries.Sublist c.entries := by
  unfold ContentCache.evictLru
  cases minEntry c.entries with
  | none => exact List.Sublist.refl _
  | some p => exact mapErase_sublist c.entries p.1

theorem evictUntilFits_not_mem {c : ContentCache} (size : Nat) {k : String}
    (h : k ∉ mapKeys c.entries) :
    k ∉ mapKeys (c.evictUntilFits size).entries := by
  refine evictUntilFits_preserves (fun c => k ∉ mapKeys c.entries) ?_ size c h
  intro c hk hmem
  exact hk (((evictLru_entries_sublist c).map Prod.fst).mem hmem)

theorem mapLookup_eq_none_of_not_mem {K V : Type} [DecidableEq K]
    {m : List (K × V)} {k : K} (h : k ∉ mapKeys m) : mapLookup m k = none := by
  induction m with
  | nil => rfl
  | cons p rest ih =>
    simp only [mapKeys, List.map_cons, List.mem_cons] at h
    push_neg at h
    simp [Ne.symm h.1, ih (by simpa [mapKeys] using h.2)]

theorem not_mem_of_mapLookup_eq_none {K V : Type} [DecidableEq K]
    {m : List (K × V)} {k : K} (h : mapLookup m k = none) : k ∉ mapKeys m := by
  induction m with
  | nil => simp
  | cons p rest ih =>
    by_cases hp : p.1 = k
    · simp [hp] at h
    · simp only [mapLookup_cons, hp, if_false] at h
      simpa [Ne.symm hp] using ih h

theorem cacheInv_removeExisting {c : ContentCache} (cid : String)
    (h : cacheInv c) : cacheInv (c.removeExisting cid) := by
  unfold ContentCache.removeExisting
  split
  · rename_i old hl
    refine ⟨nodup_mapKeys_erase cid h.1, ?_⟩
    have hse := sumSizes_erase h.1 hl
    simp only
    rw [h.2, hse]
    omega
  · exact h

theorem removeExisting_not_mem (c : ContentCache) (cid : String) :
    cid ∉ mapKeys (c.removeExisting cid).entries := by
  unfold ContentCache.removeExisting
  split
  · exact not_mem_mapKeys_erase _ _
  · rename_i hl
    exact not_mem_of_mapLookup_eq_none hl

theorem cacheInv_set {c : ContentCache} (cid : String) (data : Bytes) (now : Nat)
    (h : cacheInv c) : cacheInv (c.set cid data now) := by
  unfold ContentCache.set
  have h1 := cacheInv_removeExisting cid h
  have h2 := cacheInv_evictUntilFits data.length h1
  have hnot2 := evictUntilFits_not_mem data.length (removeExisting_not_mem c cid)
  obtain ⟨h2a, h2b⟩ := h2
  refine ⟨nodup_mapKeys_insert cid _ h2a, ?_⟩
  simp only [mapInsert, sumSizes, List.map_cons, List.sum_cons,
    mapErase_of_not_mem hnot2] at h2b ⊢
  omega

theorem cacheInv_get {c : ContentCache} (cid : String) (now : Nat)
    (h : cacheInv c) : cacheInv (c.get cid now).2 := by
  unfold ContentCache.get
  split
  · rename_i e hl
    obtain ⟨hnd, hsz⟩ := h
    refine ⟨nodup_mapKeys_insert cid _ hnd, ?_⟩
    have hse := sumSizes_erase hnd hl
    simp only [mapInsert, sumSizes, List.map_cons, List.sum_cons] at hse hsz ⊢
    omega
  · exact h

theorem cacheInv_applyCacheOp {c : ContentCache} (op : CacheOp)
    (h : cacheInv c) : cacheInv (applyCacheOp c op) := by
  cases op with
  | set cid data now => exact cacheInv_set cid data now h
  | get cid now => exact cacheInv_get cid now h
  | clear => exact ⟨List.nodup_nil, rfl⟩

theorem cacheInv_runCacheOps {c : ContentCache} (ops : List CacheOp)
    (h : cacheInv c) : cacheInv (runCacheOps c ops) := by
  induction ops generalizing c with
  | nil => exact h
  | cons op rest ih => exact ih (cacheInv_applyCacheOp op h)

-- ── Supporting lemmas: sequence cache monotonicity ───────────────────────────

theorem getCached_updateCache_self (st : SeqCache) (name : String) (seq : Nat) :
    getCached (updateCache st name seq) name
      = some (max ((getCached st name).getD 0) seq) := by
  unfold updateCache getCached
  rw [mapLookup_insert]
  simp only [if_pos rfl, Option.some.injEq]
  rcases Nat.lt_or_ge ((mapLookup st name).getD 0) seq with hlt | hge
  · simp [hlt, Nat.max_eq_right (Nat.le_of_lt hlt)]
  · simp [Nat.not_lt.mpr hge, Nat.max_eq_left hge]

theorem getCached_updateCache_other (st : SeqCache) (name name' : String) (seq : Nat)
    (h : name' ≠ name) :
    getCached (updateCache st name seq) name' = getCached st name' := by
  unfold updateCache getCached
  rw [mapLookup_insert]
  simp [h]

theorem seqCache_step_mono (st : SeqCache) (op : SeqOp) (name : String) :
    (getCached st name).getD 0 ≤ (getCached (applySeqOp st op) name).getD 0 := by
  have hupd : ∀ nm seq, (getCached st name).getD 0
      ≤ (getCached (updateCache st nm seq) name).getD 0 := by
    intro nm seq
    by_cases hn : name = nm
    · subst hn
      rw [getCached_updateCache_self]
      exact Nat.le_max_left _ _
    · rw [getCached_updateCache_other st nm name seq hn]
  cases op with
  | publish nm seq => exact hupd nm seq
  | resolve nm resp =>
    cases resp with
    | ok s => exact hupd nm _
    | error e =>
      simp only [applySeqOp, resolveSequence]
      cases hc : getCached st nm <;> simp

theorem seqCache_runSeqOps_mono (st : SeqCache) (ops : List SeqOp) (name : String) :
    (getCached st name).getD 0 ≤ (getCached (runSeqOps st ops) name).getD 0 := by
  induction ops generalizing st with
  | nil => exact Nat.le_refl _
  | cons op rest ih =>
    exact Nat.le_trans (seqCache_step_mono st op name) (ih (applySeqOp st op))

-- ── Supporting lemmas: eviction-loop postcondition ───────────────────────────

theorem evictUntilFits_post (size : Nat) :
    ∀ c : ContentCache, MAX_CACHE_SIZE < (c.evictUntilFits size).currentSize + size →
      (c.evictUntilFits size).entries = [] := by
  have H : ∀ (n : Nat) (c : ContentCache), c.entries.length = n →
      MAX_CACHE_SIZE < (c.evictUntilFits size).currentSize + size →
      (c.evictUntilFits size).entries = [] := by
    intro n
    induction n using Nat.strong_induction_on with
    | _ n ih =>
      intro c hn
      rw [ContentCache.evictUntilFits]
      split
      · rename_i hcond
        exact ih _ (hn ▸ evictLru_length_lt hcond.2) _ rfl
      · rename_i hcond
        intro hover
        rcases not_and_or.mp hcond with hfit | hempty
        · exact absurd hover hfit
        · exact not_not.mp hempty
  exact fun c => H c.entries.length c rfl

-- ── Unfolding lemmas for ContentCache.set ────────────────────────────────────

theorem ContentCache.set_def (c : ContentCache) (cid : String) (data : Bytes) (now : Nat) :
    c.set cid data now
      = { entries := mapInsert ((c.removeExisting cid).evictUntilFits data.length).entries
            cid { data := data, accessedAt := now, size := data.length },
          currentSize :=
            ((c.removeExisting cid).evictUntilFits data.length).currentSize + data.length } :=
  rfl

theorem removeExisting_none {c : ContentCache} {cid : String}
    (h : mapLookup c.entries cid = none) : c.removeExisting cid = c := by
  simp only [ContentCache.removeExisting, h]

theorem evictUntilFits_of_fits {c : ContentCache} {size : Nat}
    (h : ¬ MAX_CACHE_SIZE < c.currentSize + size) : c.evictUntilFits size = c := by
  rw [ContentCache.evictUntilFits, dif_neg (fun hc => h hc.1)]

theorem evictUntilFits_step {c : ContentCache} {size : Nat}
    (h1 : MAX_CACHE_SIZE < c.currentSize + size) (h2 : c.entries ≠ []) :
    c.evictUntilFits size = c.evictLru.evictUntilFits size := by
  rw [ContentCache.evictUntilFits, dif_pos ⟨h1, h2⟩]

theorem set_fits (c : ContentCache) (cid : String) (data : Bytes) (now : Nat)
    (hnone : mapLookup c.entries cid = none)
    (hfit : ¬ MAX_CACHE_SIZE < c.currentSize + data.length) :
    c.set cid data now
      = { entries := mapInsert c.entries cid
            { data := data, accessedAt := now, size := data.length },
          currentSize := c.currentSize + data.length } := by
  rw [ContentCache.set_def, removeExisting_none hnone, evictUntilFits_of_fits hfit]

theorem set_evict_once (c : ContentCache) (cid : String) (data : Bytes) (now : Nat)
    (hnone : mapLookup c.entries cid = none)
    (hover : MAX_CACHE_SIZE < c.currentSize + data.length)
    (hne : c.entries ≠ [])
    (hfit : ¬ MAX_CACHE_SIZE < c.evictLru.currentSize + data.length) :
    c.set cid data now
      = { entries := mapInsert c.evictLru.entries cid
            { data := data, accessedAt := now, size := data.length },
          currentSize := c.evictLru.currentSize + data.length } := by
  rw [ContentCache.set_def, removeExisting_none hnone, evictUntilFits_step hover hne,
      evictUntilFits_of_fits hfit]

-- ── Supporting lemmas: keystreams and byte encodings ─────────────────────────

theorem applyKeystream_length (f : Nat → Nat) : ∀ (off : Nat) (data : Bytes),
    (applyKeystream f off data).length = data.length := by
  intro off data
  induction data generalizing off with
  | nil => rfl
  | cons b rest ih => simp [applyKeystream, ih]

theorem applyKeystream_involutive (f : Nat → Nat) : ∀ (off : Nat) (data : Bytes),
    applyKeystream f off (applyKeystream f off data) = data := by
  intro off data
  induction data generalizing off with
  | nil => rfl
  | cons b rest ih =>
    simp only [applyKeystream, ih, List.cons.injEq, and_true]
    rw [Nat.xor_assoc, Nat.xor_self, Nat.xor_zero]

theorem applyKeystream_congr {f g : Nat → Nat} : ∀ {data : Bytes} {off off' : Nat},
    (∀ i, i < data.length → f (off + i) = g (off' + i)) →
    applyKeystream f off data = applyKeystream g off' data := by
  intro data
  induction data with
  | nil => intro off off' _; rfl
  | cons b rest ih =>
    intro off off' h
    have h0 : f off = g off' := by simpa using h 0 (by simp)
    have hrec : ∀ i, i < rest.length → f (off + 1 + i) = g (off' + 1 + i) := by
      intro i hi
      have hj := h (i + 1) (by simpa using Nat.succ_lt_succ hi)
      rwa [show off + (i + 1) = off + 1 + i by omega,
           show off' + (i + 1) = off' + 1 + i by omega] at hj
    simp only [applyKeystream, h0, ih hrec]

theorem applyKeystream_drop (f : Nat → Nat) : ∀ (data : Bytes) (off n : Nat),
    (applyKeystream f off data).drop n = applyKeystream f (off + n) (data.drop n) := by
  intro data
  induction data with
  | nil => intro off n; simp [applyKeystream]
  | cons b rest ih =>
    intro off n
    cases n with
    | zero => simp [applyKeystream]
    | succ m =>
      simp only [applyKeystream, List.drop_succ_cons]
      rw [ih (off + 1) m, show off + 1 + m = off + (m + 1) by omega]

theorem applyKeystream_take (f : Nat → Nat) : ∀ (data : Bytes) (off n : Nat),
    (applyKeystream f off data).take n = applyKeystream f off (data.take n) := by
  intro data
  induction data with
  | nil => intro off n; simp [applyKeystream]
  | cons b rest ih =>
    intro off n
    cases n with
    | zero => rfl
    | succ m => simp only [applyKeystream, List.take_succ_cons, ih]

@[simp] theorem beBytes_length : ∀ (n x : Nat), (beBytes n x).length = n := by
  intro n
  induction n with
  | zero => intro x; rfl
  | succ m ih => intro x; simp [beBytes, ih]

theorem fromBeBytes_append_single (l : Bytes) (b : Nat) :
    fromBeBytes (l ++ [b]) = fromBeBytes l * 256 + b := by
  unfold fromBeBytes
  rw [List.foldl_append]
  rfl

theorem fromBeBytes_beBytes : ∀ (n x : Nat), x < 256 ^ n →
    fromBeBytes (beBytes n x) = x := by
  intro n
  induction n with
  | zero =>
    intro x hx
    simp only [pow_zero] at hx
    simp only [beBytes, fromBeBytes, List.foldl_nil]
    omega
  | succ m ih =>
    intro x hx
    have hdiv : x / 256 < 256 ^ m := by
      apply Nat.div_lt_of_lt_mul
      rw [pow_succ, Nat.mul_comm] at hx
      exact hx
    simp only [beBytes]
    rw [fromBeBytes_append_single, ih (x / 256) hdiv]
    omega

theorem ctrKeystream_shift (E : Bytes → Bytes → Bytes) (key iv : Bytes)
    (hiv : iv.length = 16) (sb t : Nat) :
    ctrKeystream E key
        (iv.take 8 ++ beBytes 8 ((fromBeBytes (iv.drop 8) + sb) % 2 ^ 64)) t
      = ctrKeystream E key iv (sb * 16 + t) := by
  have htakelen : (iv.take 8).length = 8 := by
    simp [List.length_take, hiv]
  have hmod : (fromBeBytes (iv.drop 8) + sb) % 2 ^ 64 < 256 ^ 8 := by
    have h28 : (2 : Nat) ^ 64 = 256 ^ 8 := by norm_num
    rw [← h28]
    exact Nat.mod_lt _ (by norm_num)
  unfold ctrKeystream
  have hdivmod : (sb * 16 + t) / 16 = sb + t / 16 := by omega
  have hmod16 : (sb * 16 + t) % 16 = t % 16 := by omega
  rw [hdivmod, hmod16]
  have hblock : ctrBlock
      (iv.take 8 ++ beBytes 8 ((fromBeBytes (iv.drop 8) + sb) % 2 ^ 64)) (t / 16)
      = ctrBlock iv (sb + t / 16) := by
    unfold ctrBlock
    rw [List.take_left' htakelen, List.drop_left' htakelen,
        fromBeBytes_beBytes 8 _ hmod, Nat.mod_add_mod, Nat.add_assoc]
  rw [hblock]

-- ── Supporting lemmas: populate bookkeeping ──────────────────────────────────

theorem forall₂_mem_right {α β : Type} {R : α → β → Prop} :
    ∀ {l1 : List α} {l2 : List β}, List.Forall₂ R l1 l2 →
      ∀ {b}, b ∈ l2 → ∃ a, a ∈ l1 ∧ R a b := by
  intro l1 l2 h
  induction h with
  | nil => intro b hb; cases hb
  | cons hr _ ih =>
    intro b hb
    rcases List.mem_cons.mp hb with hb | hb
    · subst hb
      exact ⟨_, List.mem_cons_self _ _, hr⟩
    · obtain ⟨a, ha, har⟩ := ih hb
      exact ⟨a, List.mem_cons_of_mem _ ha, har⟩

theorem forall₂_mem_left {α β : Type} {R : α → β → Prop} :
    ∀ {l1 : List α} {l2 : List β}, List.Forall₂ R l1 l2 →
      ∀ {a}, a ∈ l1 → ∃ b, b ∈ l2 ∧ R a b := by
  intro l1 l2 h
  induction h with
  | nil => intro a ha; cases ha
  | cons hr _ ih =>
    intro a ha
    rcases List.mem_cons.mp ha with ha | ha
    · subst ha
      exact ⟨_, List.mem_cons_self _ _, hr⟩
    · obtain ⟨b, hb, hbr⟩ := ih ha
      exact ⟨b, List.mem_cons_of_mem _ hb, hbr⟩

theorem forall₂_imp_mem {α β : Type} {R S : α → β → Prop} :
    ∀ {l1 : List α} {l2 : List β}, List.Forall₂ R l1 l2 →
      (∀ a b, a ∈ l1 → b ∈ l2 → R a b → S a b) → List.Forall₂ S l1 l2 := by
  intro l1 l2 h
  induction h with
  | nil => intro _; exact List.Forall₂.nil
  | cons hr hrest ih =>
    intro himp
    exact List.Forall₂.cons
      (himp _ _ (List.mem_cons_self _ _) (List.mem_cons_self _ _) hr)
      (ih fun a b ha hb hr =>
        himp a b (List.mem_cons_of_mem _ ha) (List.mem_cons_of_mem _ hb) hr)

/-- What one populate iteration does to the table: the child's id is the index
hit for its name, or fresh; the index gains exactly the (parent, name) ↦ id
binding; the inode map gains exactly an entry at the id carrying the child's
name and parent. -/
theorem populateChild_spec {t t1 : InodeTable} {parentIno uid gid : Nat}
    {unwrapKey : Bytes → Except String Bytes} {c : FolderChild} {i : Nat}
    (hok : populateChild t parentIno uid gid unwrapKey c = .ok (t1, i)) :
    ((mapLookup t.nameToIno (parentIno, childName c) = some i ∧ t1.nextIno = t.nextIno)
      ∨ (mapLookup t.nameToIno (parentIno, childName c) = none ∧ i = t.nextIno
          ∧ t1.nextIno = t.nextIno + 1))
    ∧ t1.nameToIno = mapInsert t.nameToIno (parentIno, childName c) i
    ∧ ∃ d, t1.inodes = mapInsert t.inodes i d ∧ d.name = childName c
        ∧ d.parentIno = parentIno := by
  cases c with
  | folder f =>
    cases hx1 : hexDecode f.folderKeyEncrypted with
    | none => simp [populateChild, hx1] at hok
    | some b1 =>
      cases hu1 : unwrapKey b1 with
      | error e => simp [populateChild, hx1, hu1] at hok
      | ok k1 =>
        cases hx2 : hexDecode f.ipnsPrivateKeyEncrypted with
        | none => simp [populateChild, hx1, hu1, hx2] at hok
        | some b2 =>
          cases hu2 : unwrapKey b2 with
          | error e => simp [populateChild, hx1, hu1, hx2, hu2] at hok
          | ok k2 =>
            cases hfc : InodeTable.findChild t parentIno f.name with
            | some j =>
              simp only [populateChild, hx1, hu1, hx2, hu2, hfc, Option.isSome_some,
                if_true, Except.ok.injEq, Prod.mk.injEq] at hok
              obtain ⟨ht1, hi⟩ := hok
              subst ht1
              subst hi
              exact ⟨Or.inl ⟨hfc, rfl⟩, rfl, ⟨_, rfl, rfl, rfl⟩⟩
            | none =>
              simp only [populateChild, hx1, hu1, hx2, hu2, hfc, Option.isSome_none,
                Bool.false_eq_true, if_false, Except.ok.injEq, Prod.mk.injEq] at hok
              obtain ⟨ht1, hi⟩ := hok
              subst ht1
              subst hi
              exact ⟨Or.inr ⟨hfc, rfl, rfl⟩, rfl, ⟨_, rfl, rfl, rfl⟩⟩
  | file f =>
    cases hfc : InodeTable.findChild t parentIno f.name with
    | some j =>
      simp only [populateChild, hfc, Except.ok.injEq, Prod.mk.injEq] at hok
      obtain ⟨ht1, hi⟩ := hok
      subst ht1
      subst hi
      exact ⟨Or.inl ⟨hfc, rfl⟩, rfl, ⟨_, rfl, rfl, rfl⟩⟩
    | none =>
      simp only [populateChild, hfc, Except.ok.injEq, Prod.mk.injEq] at hok
      obtain ⟨ht1, hi⟩ := hok
      subst ht1
      subst hi
      exact ⟨Or.inr ⟨hfc, rfl, rfl⟩, rfl, ⟨_, rfl, rfl, rfl⟩⟩

/-- The populate well-formedness facts survive one child insertion. -/
theorem WF_after_insert {t t1 : InodeTable} {parentIno : Nat} {nm : String} {i : Nat}
    (hwf : PopulateWF t parentIno)
    (hb1 : (mapLookup t.nameToIno (parentIno, nm) = some i ∧ t1.nextIno = t.nextIno)
        ∨ (mapLookup t.nameToIno (parentIno, nm) = none ∧ i = t.nextIno
            ∧ t1.nextIno = t.nextIno + 1))
    (hb2 : t1.nameToIno = mapInsert t.nameToIno (parentIno, nm) i) :
    PopulateWF t1 parentIno := by
  obtain ⟨hpn, hrange, hinj⟩ := hwf
  have hmono : t.nextIno ≤ t1.nextIno := by
    rcases hb1 with ⟨_, h⟩ | ⟨_, _, h⟩ <;> omega
  refine ⟨by omega, ?_, ?_⟩
  · intro n j hl
    rw [hb2, mapLookup_insert] at hl
    split at hl
    · rename_i heq
      obtain ⟨hj⟩ := hl
      rcases hb1 with ⟨hold, hnext⟩ | ⟨_, hfresh, hnext⟩
      · have := hrange nm i hold
        omega
      · omega
    · have := hrange n j hl
      omega
  · intro n n' j h1 h2
    rw [hb2, mapLookup_insert] at h1 h2
    split at h1 <;> split at h2
    · rename_i he1 he2
      simp only [Prod.mk.injEq, true_and] at he1 he2
      rw [he1, he2]
    · rename_i he1 hne2
      simp only [Prod.mk.injEq, true_and] at he1
      have hj : i = j := Option.some.inj h1
      rcases hb1 with ⟨hold, _⟩ | ⟨_, hfresh, _⟩
      · rw [he1]
        exact (hinj n' nm j h2 (hj ▸ hold)).symm
      · have := hrange n' j h2
        omega
    · rename_i hne1 he2
      simp only [Prod.mk.injEq, true_and] at he2
      have hj : i = j := Option.some.inj h2
      rcases hb1 with ⟨hold, _⟩ | ⟨_, hfresh, _⟩
      · rw [he2]
        exact hinj n nm j h1 (hj ▸ hold)
      · have := hrange n j h1
        omega
    · exact hinj n n' j h1 h2

/-- What the populate loop does to the table, by induction over the manifest
children: well-formedness is preserved, the allocation counter never moves
backwards, index keys and inode entries outside the processed names/ids are
untouched, every produced id avoids the parent and either reuses the index
hit for one of the names or is freshly allocated, and each child ends up
recorded under its name with its id bound in the index. -/
theorem populateChildren_spec {parentIno uid gid : Nat}
    {unwrapKey : Bytes → Except String Bytes} :
    ∀ {cs : List FolderChild} {t t' : InodeTable} {inos : List Nat},
    populateChildren parentIno uid gid unwrapKey t cs = .ok (t', inos) →
    PopulateWF t parentIno →
    (cs.map childName).Nodup →
    (PopulateWF t' parentIno
     ∧ t.nextIno ≤ t'.nextIno
     ∧ (∀ p n, p ≠ parentIno ∨ n ∉ cs.map childName →
          mapLookup t'.nameToIno (p, n) = mapLookup t.nameToIno (p, n))
     ∧ (∀ j, j ∉ inos → mapLookup t'.inodes j = mapLookup t.inodes j)
     ∧ (∀ j, j ∈ inos → j ≠ parentIno ∧ j < t'.nextIno
          ∧ ((∃ n, n ∈ cs.map childName ∧ mapLookup t.nameToIno (parentIno, n) = some j)
             ∨ t.nextIno ≤ j))
     ∧ List.Forall₂ (fun c j =>
          (∃ d, mapLookup t'.inodes j = some d ∧ d.name = childName c
             ∧ d.parentIno = parentIno)
          ∧ mapLookup t'.nameToIno (parentIno, childName c) = some j
          ∧ (mapLookup t.nameToIno (parentIno, childName c) = some j
             ∨ (mapLookup t.nameToIno (parentIno, childName c) = none
                 ∧ t.nextIno ≤ j))) cs inos) := by
  intro cs
  induction cs with
  | nil =>
    intro t t' inos hok hwf hnd
    simp only [populateChildren, Except.ok.injEq, Prod.mk.injEq] at hok
    obtain ⟨ht, hinos⟩ := hok
    subst ht
    subst hinos
    exact ⟨hwf, Nat.le_refl _, fun p n _ => rfl, fun j _ => rfl,
      fun j hj => absurd hj (List.not_mem_nil j), List.Forall₂.nil⟩
  | cons c rest ih =>
    intro t t' inos hok hwf hnd
    cases hpc : populateChild t parentIno uid gid unwrapKey c with
    | error e => simp [populateChildren, hpc] at hok
    | ok step =>
      obtain ⟨t1, i0⟩ := step
      cases hrest : populateChildren parentIno uid gid unwrapKey t1 rest with
      | error e => simp [populateChildren, hpc, hrest] at hok
      | ok tail =>
        obtain ⟨t2, inos'⟩ := tail
        simp only [populateChildren, hpc, hrest, Except.ok.injEq, Prod.mk.injEq] at hok
        obtain ⟨ht', hinos⟩ := hok
        subst ht'
        subst hinos
        obtain ⟨hb1, hb2, d0, hb3, hdname, hdparent⟩ := populateChild_spec hpc
        rw [List.map_cons, List.nodup_cons] at hnd
        obtain ⟨hcnotin, hndrest⟩ := hnd
        have hwf1 : PopulateWF t1 parentIno := WF_after_insert hwf hb1 hb2
        have hmono1 : t.nextIno ≤ t1.nextIno := by
          rcases hb1 with ⟨_, h⟩ | ⟨_, _, h⟩ <;> omega
        obtain ⟨hwf2, hmono2, hA4, hA5, hA9, hF2⟩ := ih hrest hwf1 hndrest
        have hlk1 : ∀ p n, ¬(p = parentIno ∧ n = childName c) →
            mapLookup t1.nameToIno (p, n) = mapLookup t.nameToIno (p, n) := by
          intro p n hne
          rw [hb2, mapLookup_insert, if_neg]
          intro h
          simp only [Prod.mk.injEq] at h
          exact hne h
        have hlk1self : mapLookup t1.nameToIno (parentIno, childName c) = some i0 := by
          rw [hb2, mapLookup_insert, if_pos rfl]
        have hino1 : ∀ j, j ≠ i0 → mapLookup t1.inodes j = mapLookup t.inodes j := by
          intro j hne
          rw [hb3, mapLookup_insert, if_neg hne]
        have hino1self : mapLookup t1.inodes i0 = some d0 := by
          rw [hb3, mapLookup_insert, if_pos rfl]
        have hi0notin : i0 ∉ inos' := by
          intro hmem
          obtain ⟨hne0, hlt0, hcase⟩ := hA9 i0 hmem
          rcases hcase with ⟨n, hnmem, hnlk⟩ | hge
          · have hnne : ¬(parentIno = parentIno ∧ n = childName c) := by
              intro h
              exact hcnotin (h.2 ▸ hnmem)
            rw [hlk1 parentIno n hnne] at hnlk
            rcases hb1 with ⟨hold, _⟩ | ⟨hnone, hfresh, _⟩
            · exact hcnotin ((hwf.2.2 n (childName c) i0 hnlk hold) ▸ hnmem)
            · have := hwf.2.1 n i0 hnlk
              omega
          · rcases hb1 with ⟨hold, hnext⟩ | ⟨_, hfresh, hnext⟩
            · have := hwf.2.1 (childName c) i0 hold
              omega
            · omega
        refine ⟨hwf2, Nat.le_trans hmono1 hmono2, ?_, ?_, ?_, ?_⟩
        · intro p n hcond
          have hnotrest : p ≠ parentIno ∨ n ∉ rest.map childName := by
            rcases hcond with h | h
            · exact Or.inl h
            · right
              intro hm
              exact h (by simp [hm])
          have hne1 : ¬(p = parentIno ∧ n = childName c) := by
            rcases hcond with h | h
            · intro hc; exact h hc.1
            · intro hc
              exact h (by simp [hc.2])
          rw [hA4 p n hnotrest, hlk1 p n hne1]
        · intro j hj
          have hj1 : j ≠ i0 := fun h => hj (h ▸ List.mem_cons_self i0 inos')
          have hj2 : j ∉ inos' := fun h => hj (List.mem_cons_of_mem i0 h)
          rw [hA5 j hj2, hino1 j hj1]
        · intro j hj
          rcases List.mem_cons.mp hj with hj | hj
          · subst hj
            rcases hb1 with ⟨hold, hnext⟩ | ⟨hnone, hfresh, hnext⟩
            · obtain ⟨hlt, hnep⟩ := hwf.2.1 (childName c) j hold
              exact ⟨hnep, by omega, Or.inl ⟨childName c, by simp, hold⟩⟩
            · refine ⟨by have := hwf.1; omega, by omega, Or.inr (by omega)⟩
          · obtain ⟨hne0, hlt0, hcase⟩ := hA9 j hj
            refine ⟨hne0, hlt0, ?_⟩
            rcases hcase with ⟨n, hnmem, hnlk⟩ | hge
            · have hnne : ¬(parentIno = parentIno ∧ n = childName c) := by
                intro h
                exact hcnotin (h.2 ▸ hnmem)
              rw [hlk1 parentIno n hnne] at hnlk
              exact Or.inl ⟨n, by simp [hnmem], hnlk⟩
            · exact Or.inr (by omega)
        · refine List.Forall₂.cons ⟨⟨d0, ?_, hdname, hdparent⟩, ?_, ?_⟩ ?_
          · rw [hA5 i0 hi0notin, hino1self]
          · rw [hA4 parentIno (childName c) (Or.inr hcnotin), hlk1self]
          · rcases hb1 with ⟨hold, _⟩ | ⟨hnone, hfresh, _⟩
            · exact Or.inl hold
            · exact Or.inr ⟨hnone, by omega⟩
          · refine forall₂_imp_mem hF2 ?_
            intro c' j hc' hjmem hr
            obtain ⟨hd, hlk, hthird⟩ := hr
            have hc'ne : ¬(parentIno = parentIno ∧ childName c' = childName c) := by
              intro h
              exact hcnotin (h.2 ▸ List.mem_map_of_mem childName hc')
            refine ⟨hd, hlk, ?_⟩
            rcases hthird with hsome | ⟨hnone1, hge1⟩
            · rw [hlk1 parentIno (childName c') hc'ne] at hsome
              exact Or.inl hsome
            · rw [hlk1 parentIno (childName c') hc'ne] at hnone1
              exact Or.inr ⟨hnone1, by omega⟩

/-- What the removal pass does: the counter is untouched; the name index only
loses entries, and only keys of this parent with names outside the manifest;
inode entries only disappear, and only at the removed child ids. -/
theorem removeAbsent_spec (parentIno : Nat) (newNames : List String) :
    ∀ (olds : List Nat) (t : InodeTable),
      (removeAbsentChildren parentIno newNames olds t).nextIno = t.nextIno
      ∧ (∀ key i,
          mapLookup (removeAbsentChildren parentIno newNames olds t).nameToIno key = some i →
          mapLookup t.nameToIno key = some i)
      ∧ (∀ p n, p ≠ parentIno ∨ n ∈ newNames →
          mapLookup (removeAbsentChildren parentIno newNames olds t).nameToIno (p, n)
            = mapLookup t.nameToIno (p, n))
      ∧ (∀ j,
          mapLookup (removeAbsentChildren parentIno newNames olds t).inodes j
            = mapLookup t.inodes j
          ∨ mapLookup (removeAbsentChildren parentIno newNames olds t).inodes j = none)
      ∧ (∀ j, j ∉ olds →
          mapLookup (removeAbsentChildren parentIno newNames olds t).inodes j
            = mapLookup t.inodes j) := by
  intro olds
  induction olds with
  | nil =>
    intro t
    exact ⟨rfl, fun _ _ h => h, fun _ _ _ => rfl, fun _ => Or.inl rfl, fun _ _ => rfl⟩
  | cons o rest ih =>
    intro t
    have hstep : removeAbsentChildren parentIno newNames (o :: rest) t
        = removeAbsentChildren parentIno newNames rest
            (match mapLookup t.inodes o with
             | some oldChild =>
               if oldChild.name ∈ newNames then t
               else
                 { t with
                   inodes := mapErase t.inodes o,
                   nameToIno := mapErase t.nameToIno (parentIno, oldChild.name) }
             | none => t) := by
      simp only [removeAbsentChildren, List.foldl_cons]
    rw [hstep]
    cases hlo : mapLookup t.inodes o with
    | none =>
      simp only [hlo]
      obtain ⟨i1, i2, i3, i4, i5⟩ := ih t
      exact ⟨i1, i2, i3, i4, fun j hj => i5 j (fun h => hj (List.mem_cons_of_mem o h))⟩
    | some oldChild =>
      simp only [hlo]
      by_cases hname : oldChild.name ∈ newNames
      · rw [if_pos hname]
        obtain ⟨i1, i2, i3, i4, i5⟩ := ih t
        exact ⟨i1, i2, i3, i4, fun j hj => i5 j (fun h => hj (List.mem_cons_of_mem o h))⟩
      · rw [if_neg hname]
        set te : InodeTable :=
          { t with
            inodes := mapErase t.inodes o,
            nameToIno := mapErase t.nameToIno (parentIno, oldChild.name) } with hte
        obtain ⟨i1, i2, i3, i4, i5⟩ := ih te
        refine ⟨i1.trans rfl, ?_, ?_, ?_, ?_⟩
        · intro key j h
          have h2 := i2 key j h
          have : te.nameToIno = mapErase t.nameToIno (parentIno, oldChild.name) := rfl
          rw [this, mapLookup_erase] at h2
          split at h2
          · cases h2
          · exact h2
        · intro p n hcond
          rw [i3 p n hcond]
          have : te.nameToIno = mapErase t.nameToIno (parentIno, oldChild.name) := rfl
          rw [this, mapLookup_erase, if_neg]
          intro heq
          rcases hcond with hp | hn
          · exact hp (congrArg Prod.fst heq)
          · rw [Prod.mk.injEq] at heq
            exact hname (heq.2 ▸ hn)
        · intro j
          rcases i4 j with h | h
          · have : te.inodes = mapErase t.inodes o := rfl
            rw [this, mapLookup_erase] at h
            split at h
            · exact Or.inr h
            · exact Or.inl h
          · exact Or.inr h
        · intro j hj
          have hjo : j ≠ o := fun h => hj (h ▸ List.mem_cons_self o rest)
          have hjrest : j ∉ rest := fun h => hj (List.mem_cons_of_mem o h)
          rw [i5 j hjrest]
          have : te.inodes = mapErase t.inodes o := rfl
          rw [this, mapLookup_erase, if_neg hjo]

/-- The populate well-formedness facts survive the removal pass. -/
theorem WF_removeAbsent {t : InodeTable} {parentIno : Nat} (newNames : List String)
    (olds : List Nat) (hwf : PopulateWF t parentIno) :
    PopulateWF (removeAbsentChildren parentIno newNames olds t) parentIno := by
  obtain ⟨hR2, hR1, _, _, _⟩ := removeAbsent_spec parentIno newNames olds t
  exact ⟨hR2 ▸ hwf.1,
    fun n i h => hR2 ▸ hwf.2.1 n i (hR1 _ i h),
    fun n n' i h1 h2 => hwf.2.2 n n' i (hR1 _ i h1) (hR1 _ i h2)⟩

/-- Decomposition of a successful populate: the children loop ran on the
(possibly removal-processed) table and produced the child id list, and the
final table is the loop result with only the parent's inode entry rewritten —
children set to the new list (plus, in merge-only mode, the preserved old
children), index and counter untouched. -/
theorem populateFolder_anatomy {t : InodeTable} {parentIno : Nat}
    {metadata : FolderMetadata} {unwrapKey : Bytes → Except String Bytes}
    {uid gid now : Nat} {mergeOnly : Bool} {t' : InodeTable}
    (hok : t.populateFolder parentIno metadata unwrapKey uid gid now mergeOnly
      = .ok t') :
    ∃ t2 childInos,
      populateChildren parentIno uid gid unwrapKey
        (if mergeOnly then t
         else removeAbsentChildren parentIno (metadata.children.map childName)
           (parentChildren t parentIno) t)
        metadata.children = .ok (t2, childInos)
      ∧ t'.nameToIno = t2.nameToIno
      ∧ t'.nextIno = t2.nextIno
      ∧ ((mapLookup t2.inodes parentIno = none ∧ t' = t2)
         ∨ (∃ parent, mapLookup t2.inodes parentIno = some parent
             ∧ (∀ j, j ≠ parentIno → mapLookup t'.inodes j = mapLookup t2.inodes j)
             ∧ (∃ parent2, mapLookup t'.inodes parentIno = some parent2
                 ∧ parent2.children = some (if mergeOnly then
                     childInos ++ (parent.children.getD []).filter (fun i =>
                       match mapLookup t2.inodes i with
                       | some d => decide (d.name ∉ metadata.children.map childName)
                       | none => false)
                   else childInos)))) := by
  simp only [InodeTable.populateFolder] at hok
  cases hpc : populateChildren parentIno uid gid unwrapKey
      (if mergeOnly then t
       else removeAbsentChildren parentIno (metadata.children.map childName)
         (((mapLookup t.inodes parentIno).bind InodeData.children).getD []) t)
      metadata.children with
  | error e =>
    rw [hpc] at hok
    simp at hok
  | ok result =>
    obtain ⟨t2, childInos⟩ := result
    rw [hpc] at hok
    simp only [] at hok
    refine ⟨t2, childInos, hpc, ?_⟩
    cases hpp : mapLookup t2.inodes parentIno with
    | none =>
      rw [hpp] at hok
      simp only [Except.ok.injEq] at hok
      subst hok
      exact ⟨rfl, rfl, Or.inl ⟨rfl, rfl⟩⟩
    | some parent =>
      rw [hpp] at hok
      simp only [Except.ok.injEq] at hok
      subst hok
      refine ⟨rfl, rfl, Or.inr ⟨parent, rfl, ?_, ?_⟩⟩
      · intro j hj
        simp only
        rw [mapLookup_insert, if_neg hj]
      · have hlook : ∀ (d : InodeData),
            mapLookup (mapInsert t2.inodes parentIno d) parentIno = some d :=
          fun d => by rw [mapLookup_insert, if_pos rfl]
        exact ⟨_, hlook _, rfl⟩

/-- The fresh table is well-formed around the root. -/
theorem populateWF_new (uid gid now : Nat) : PopulateWF (InodeTable.new uid gid now) 1 := by
  refine ⟨Nat.one_lt_two, ?_, ?_⟩
  · intro n i h
    simp [InodeTable.new, mapLookup] at h
  · intro n n' i h _
    simp [InodeTable.new, mapLookup] at h

/-- The fresh table satisfies the children/index bijection around the root. -/
theorem childrenWF_new (uid gid now : Nat) : ChildrenWF (InodeTable.new uid gid now) 1 := by
  intro i h
  simp [parentChildren, InodeTable.new, mapLookup, ROOT_INO] at h

/-- GCM round trip: unsealing a sealed buffer recovers the plaintext, for any
block function E producing 16-byte blocks and any 12-byte nonce. -/
theorem unseal_seal_gcm (E : Bytes → Bytes → Bytes) (key iv pt : Bytes)
    (hiv : iv.length = 12) (hE : ∀ k b, (E k b).length = 16) :
    unseal_aes_gcm E (seal_aes_gcm E pt key iv) key = Except.ok pt := by
  have hct : (applyKeystream (gcmKeystream E key iv) 0 pt).length = pt.length :=
    applyKeystream_length _ 0 pt
  have htag : (gcmTag E key iv (applyKeystream (gcmKeystream E key iv) 0 pt)).length = 16 := by
    simp [gcmTag, hE]
  unfold seal_aes_gcm encrypt_aes_gcm unseal_aes_gcm
  rw [if_neg (by simp only [List.length_append, hiv, hct, htag]; omega)]
  rw [List.drop_left' hiv, List.take_left' hiv]
  unfold decrypt_aes_gcm
  rw [if_neg (by simp only [List.length_append, hct, htag]; omega)]
  have hlen16 : (applyKeystream (gcmKeystream E key iv) 0 pt
      ++ gcmTag E key iv (applyKeystream (gcmKeystream E key iv) 0 pt)).length - 16
      = (applyKeystream (gcmKeystream E key iv) 0 pt).length := by
    simp only [List.length_append, htag]
    omega
  rw [hlen16, List.take_left, List.drop_left, if_pos rfl,
      applyKeystream_involutive]

-- ══ Claim theorems ═══════════════════════════════════════════════════════════

/-- Claim C10: after every sequence of content-cache operations (set, get,
clear, including the evictions triggered inside set), the `current_size` field
equals the sum of the `size` fields of the entries currently stored in the
map; re-inserting an already-present CID subtracts the old entry's size before
adding the new one, so no entry is double-counted. -/
theorem C10_content_cache_size_accounting (ops : List CacheOp) :
    (runCacheOps ContentCache.new ops).currentSize
      = sumSizes (runCacheOps ContentCache.new ops).entries :=
  (cacheInv_runCacheOps ops cacheInv_new).2

/-- Claim C2: the publish coordinator's cached sequence number is monotonically
non-decreasing per record name across any sequence of resolve_sequence and
record_publish calls; resolve_sequence returns and stores max(resolved, cached)
on resolver success, returns the cached value on failure when one exists, and
returns an error on failure with no cached value. -/
theorem C2_publish_coordinator_sequences (st : SeqCache) (name : String) :
    (∀ ops : List SeqOp,
        (getCached st name).getD 0 ≤ (getCached (runSeqOps st ops) name).getD 0)
    ∧ (∀ s : String,
        resolveSequence st name (Except.ok s)
          = (Except.ok (max ((parseU64 s).getD 0) ((getCached st name).getD 0)),
             updateCache st name (max ((parseU64 s).getD 0) ((getCached st name).getD 0)))
        ∧ getCached (resolveSequence st name (Except.ok s)).2 name
            = some (max ((parseU64 s).getD 0) ((getCached st name).getD 0)))
    ∧ (∀ (e : String) (v : Nat), getCached st name = some v →
        resolveSequence st name (Except.error e) = (Except.ok v, st))
    ∧ (∀ e : String, getCached st name = none →
        ∃ msg, resolveSequence st name (Except.error e) = (Except.error msg, st)) := by
  refine ⟨fun ops => seqCache_runSeqOps_mono st ops name, fun s => ⟨rfl, ?_⟩, ?_, ?_⟩
  · simp only [resolveSequence, getCached_updateCache_self, Option.some.injEq]
    omega
  · intro e v hv
    simp [resolveSequence, hv]
  · intro e h
    exact ⟨"IPNS resolve failed and no cached sequence for " ++ name ++ ": " ++ e,
      by simp [resolveSequence, h]⟩

/-- Witness for C2: concrete resolver-failure behaviour with and without a
cached sequence number. -/
theorem C2_publish_coordinator_sequences_witness :
    (resolveSequence [("k", 5)] "k" (Except.error "down") = (Except.ok 5, [("k", 5)]))
    ∧ (∃ msg, resolveSequence [] "k" (Except.error "down") = (Except.error msg, [])) :=
  ⟨(C2_publish_coordinator_sequences [("k", 5)] "k").2.2.1 "down" 5 (by decide),
   (C2_publish_coordinator_sequences [] "k").2.2.2 "down" (by decide)⟩

/-- Claim C8: ContentCache::set evicts least-recently-accessed entries until the
new entry fits within the 256 MiB cap yet always stores the new entry (even one
larger than the cap, in which case it is the only entry left); and in the
three-entry scenario with entries of size cap/3 + 1 and a get on the first
entry between inserts, the first and third entries survive and the second is
evicted. -/
theorem C8_content_cache_lru_eviction :
    (∀ (c : ContentCache) (cid : String) (data : Bytes) (now : Nat),
        mapLookup (c.set cid data now).entries cid
          = some { data := data, accessedAt := now, size := data.length }
        ∧ ((c.set cid data now).currentSize ≤ MAX_CACHE_SIZE
           ∨ (c.set cid data now).entries
               = [(cid, { data := data, accessedAt := now, size := data.length })]))
    ∧ (∀ d1 d2 d3 : Bytes,
        d1.length = MAX_CACHE_SIZE / 3 + 1 →
        d2.length = MAX_CACHE_SIZE / 3 + 1 →
        d3.length = MAX_CACHE_SIZE / 3 + 1 →
        (mapLookup ((((ContentCache.new.set "a" d1 1).set "b" d2 2).get "a" 3).2.set
            "c" d3 4).entries "a").isSome
        ∧ mapLookup ((((ContentCache.new.set "a" d1 1).set "b" d2 2).get "a" 3).2.set
            "c" d3 4).entries "b" = none
        ∧ (mapLookup ((((ContentCache.new.set "a" d1 1).set "b" d2 2).get "a" 3).2.set
            "c" d3 4).entries "c").isSome) := by
  constructor
  · intro c cid data now
    constructor
    · rw [ContentCache.set_def]
      simp [mapLookup_insert]
    · by_cases hover : MAX_CACHE_SIZE <
          ((c.removeExisting cid).evictUntilFits data.length).currentSize + data.length
      · right
        rw [ContentCache.set_def]
        have hempty := evictUntilFits_post data.length (c.removeExisting cid) hover
        simp [mapInsert, hempty]
      · left
        rw [ContentCache.set_def]
        simp only
        omega
  · intro d1 d2 d3 hd1 hd2 hd3
    have h1 : ContentCache.new.set "a" d1 1
        = { entries := [("a", { data := d1, accessedAt := 1, size := d1.length })],
            currentSize := 0 + d1.length } := by
      exact (set_fits ContentCache.new "a" d1 1 rfl
        (by rw [hd1]; decide)).trans rfl
    have h2 : (ContentCache.new.set "a" d1 1).set "b" d2 2
        = { entries := [("b", { data := d2, accessedAt := 2, size := d2.length }),
                        ("a", { data := d1, accessedAt := 1, size := d1.length })],
            currentSize := 0 + d1.length + d2.length } := by
      rw [h1]
      refine (set_fits _ "b" d2 2 ?_ ?_).trans rfl
      · rfl
      · show ¬ MAX_CACHE_SIZE < 0 + d1.length + d2.length
        rw [hd1, hd2]; decide
    have h3 : (((ContentCache.new.set "a" d1 1).set "b" d2 2).get "a" 3).2
        = { entries := [("a", { data := d1, accessedAt := 3, size := d1.length }),
                        ("b", { data := d2, accessedAt := 2, size := d2.length })],
            currentSize := 0 + d1.length + d2.length } := by
      rw [h2]
      rfl
    have h4 : (((ContentCache.new.set "a" d1 1).set "b" d2 2).get "a" 3).2.set "c" d3 4
        = { entries := [("c", { data := d3, accessedAt := 4, size := d3.length }),
                        ("a", { data := d1, accessedAt := 3, size := d1.length })],
            currentSize := 0 + d1.length + d2.length - d2.length + d3.length } := by
      rw [h3]
      refine (set_evict_once _ "c" d3 4 ?_ ?_ ?_ ?_).trans rfl
      · rfl
      · show MAX_CACHE_SIZE < 0 + d1.length + d2.length + d3.length
        rw [hd1, hd2, hd3]; decide
      · simp
      · show ¬ MAX_CACHE_SIZE < 0 + d1.length + d2.length - d2.length + d3.length
        rw [hd1, hd2, hd3]; decide
    rw [h4]
    exact ⟨rfl, rfl, rfl⟩

/-- Claim C3: for every plaintext (including the empty one), 32-byte key, and
any fresh nonce drawn by seal, unsealing the output of seal returns exactly
the plaintext (the sealed form being nonce(12) ‖ ciphertext ‖ tag(16)); and
unseal fails with a DECRYPTION error on every buffer shorter than 28 bytes.
The AES-256 block function E is the external aes crate's primitive; the only
facts used about it are that it is a function producing 16-byte blocks. -/
theorem C3_seal_unseal_roundtrip (E : Bytes → Bytes → Bytes) (key iv pt : Bytes)
    (hiv : iv.length = 12) (hE : ∀ k b, (E k b).length = 16) :
    unseal_aes_gcm E (seal_aes_gcm E pt key iv) key = Except.ok pt
    ∧ (∀ buf : Bytes, buf.length < 28 →
        unseal_aes_gcm E buf key = Except.error AesError.DecryptionFailed) := by
  constructor
  · exact unseal_seal_gcm E key iv pt hiv hE
  · intro buf hb
    unfold unseal_aes_gcm
    rw [if_pos hb]

/-- Witness for C3: the round trip evaluated with a concrete 16-byte-block
function, a concrete nonce and a concrete plaintext, and the short-buffer
rejection at a 1-byte buffer. -/
theorem C3_seal_unseal_roundtrip_witness :
    unseal_aes_gcm (fun _ _ => List.replicate 16 0)
        (seal_aes_gcm (fun _ _ => List.replicate 16 0) [104, 105] [7] (List.replicate 12 3))
        [7]
      = Except.ok [104, 105]
    ∧ unseal_aes_gcm (fun _ _ => List.replicate 16 0) [9] [7]
      = Except.error AesError.DecryptionFailed :=
  ⟨(C3_seal_unseal_roundtrip (fun _ _ => List.replicate 16 0) [7] (List.replicate 12 3)
      [104, 105] (by simp) (fun _ _ => by simp)).1,
   (C3_seal_unseal_roundtrip (fun _ _ => List.replicate 16 0) [7] (List.replicate 12 3)
      [104, 105] (by simp) (fun _ _ => by simp)).2 [9] (by decide)⟩

/-- Claim C4: for every 32-byte key, 16-byte IV, ciphertext and byte indices
start ≤ end, the streaming range decrypt equals the corresponding substring
decrypt_all(ct)[start ..= min(end, ct.length - 1)] of the full decrypt,
and a range lying entirely beyond the ciphertext yields an empty buffer
(the substring is then empty as well). -/
theorem C4_ctr_range_decrypt (E : Bytes → Bytes → Bytes) (key iv ct : Bytes)
    (s e : Nat) (hiv : iv.length = 16) (hse : s ≤ e) :
    decrypt_aes_ctr_range E ct key iv s e
      = Except.ok (((decrypt_aes_ctr E ct key iv).drop s).take
          (min e (ct.length - 1) - s + 1)) := by
  unfold decrypt_aes_ctr_range
  rw [if_neg (by omega)]
  by_cases hempty : ct = [] ∨ s ≥ ct.length
  · rw [if_pos hempty]
    have hlen : (decrypt_aes_ctr E ct key iv).length ≤ s := by
      rcases hempty with h | h
      · subst h
        simp [decrypt_aes_ctr, encrypt_aes_ctr, applyKeystream]
      · rw [decrypt_aes_ctr, encrypt_aes_ctr, applyKeystream_length]
        omega
    rw [List.drop_eq_nil_of_le hlen, List.take_nil]
  · rw [if_neg hempty]
    push_neg at hempty
    obtain ⟨hne, hs⟩ := hempty
    have hlenpos : 0 < ct.length := List.length_pos.mpr hne
    rw [if_neg (by omega)]
    simp only [Except.ok.injEq]
    have hshift : applyKeystream
        (ctrKeystream E key
          (iv.take 8 ++ beBytes 8 ((fromBeBytes (iv.drop 8) + s / 16) % 2 ^ 64))) 0
        ((ct.drop (s / 16 * 16)).take
          (min ((min e (ct.length - 1) / 16 + 1) * 16) ct.length - s / 16 * 16))
        = applyKeystream (ctrKeystream E key iv) (s / 16 * 16)
            ((ct.drop (s / 16 * 16)).take
              (min ((min e (ct.length - 1) / 16 + 1) * 16) ct.length - s / 16 * 16)) := by
      apply applyKeystream_congr
      intro i _
      rw [Nat.zero_add]
      exact ctrKeystream_shift E key iv hiv (s / 16) i
    rw [hshift, applyKeystream_drop, applyKeystream_take,
        decrypt_aes_ctr, encrypt_aes_ctr, applyKeystream_drop, applyKeystream_take,
        Nat.zero_add,
        show s / 16 * 16 + (s - s / 16 * 16) = s by omega]
    congr 1
    rw [List.drop_take, List.drop_drop,
        show s / 16 * 16 + (s - s / 16 * 16) = s by omega,
        List.take_take]
    congr 1
    have hclamp1 : min e (ct.length - 1) < (min e (ct.length - 1) / 16 + 1) * 16 := by
      omega
    have hclamp2 : min e (ct.length - 1) + 1 ≤ ct.length := by
      omega
    omega

/-- Witness for C4: the range decrypt evaluated at a concrete block function,
key, IV, ciphertext and range. -/
theorem C4_ctr_range_decrypt_witness :
    decrypt_aes_ctr_range (fun _ _ => List.replicate 16 1) [10, 20, 30] [7]
        (List.replicate 16 2) 1 5
      = Except.ok (((decrypt_aes_ctr (fun _ _ => List.replicate 16 1) [10, 20, 30] [7]
          (List.replicate 16 2)).drop 1).take
            (min 5 ([10, 20, 30].length - 1) - 1 + 1)) :=
  C4_ctr_range_decrypt (fun _ _ => List.replicate 16 1) [7] (List.replicate 16 2)
    [10, 20, 30] 1 5 (by simp) (by decide)

/-- Claim C9: verify_ed25519 is total and returns a boolean on every input —
wrong signature or key sizes and invalid key encodings yield false, never a
panic; and for every 32-byte seed and message, the signature produced by
sign_ed25519 verifies under get_public_key's key, while any other signature
(in particular one with a flipped bit) verifies false. The ed25519-dalek
primitives are the abstract backend B; the hypotheses are that crate's
documented contract (64-byte deterministic signatures, 32-byte verifying
keys that re-parse, and verification accepting exactly the signature of the
message under the key). -/
theorem C9_ed25519_verify_total_and_roundtrip (B : Ed25519Backend)
    (hparse : ∀ seed : Bytes, seed.length = 32 →
      B.parseVerifyingKey (B.verifyingKeyOf seed) = some (B.verifyingKeyOf seed))
    (hsiglen : ∀ seed msg : Bytes, seed.length = 32 → (B.sign seed msg).length = 64)
    (hvklen : ∀ seed : Bytes, seed.length = 32 → (B.verifyingKeyOf seed).length = 32)
    (hverify : ∀ seed msg : Bytes, seed.length = 32 →
      B.verify (B.verifyingKeyOf seed) msg (B.sign seed msg) = true)
    (hreject : ∀ seed msg sig : Bytes, seed.length = 32 → sig ≠ B.sign seed msg →
      B.verify (B.verifyingKeyOf seed) msg sig = false) :
    (∀ message signature publicKey : Bytes,
        signature.length ≠ 64 ∨ publicKey.length ≠ 32 →
        verify_ed25519 B message signature publicKey = false)
    ∧ (∀ message signature publicKey : Bytes,
        B.parseVerifyingKey publicKey = none →
        verify_ed25519 B message signature publicKey = false)
    ∧ (∀ seed m : Bytes, seed.length = 32 →
        ∃ sig pk, sign_ed25519 B m seed = Except.ok sig
          ∧ get_public_key B seed = Except.ok pk
          ∧ verify_ed25519 B m sig pk = true)
    ∧ (∀ seed m sig : Bytes, seed.length = 32 → sig ≠ B.sign seed m →
        verify_ed25519 B m sig (B.verifyingKeyOf seed) = false) := by
  refine ⟨?_, ?_, ?_, ?_⟩
  · intro m sig pk h
    unfold verify_ed25519
    rw [if_pos h]
  · intro m sig pk h
    unfold verify_ed25519
    split
    · rfl
    · simp only [h]
  · intro seed m h32
    refine ⟨B.sign seed m, B.verifyingKeyOf seed, ?_, ?_, ?_⟩
    · unfold sign_ed25519
      rw [if_neg (by omega)]
    · unfold get_public_key
      rw [if_neg (by omega)]
    · unfold verify_ed25519
      rw [if_neg (by push_neg; exact ⟨hsiglen seed m h32, hvklen seed h32⟩)]
      simp only [hparse seed h32]
      exact hverify seed m h32
  · intro seed m sig h32 hne
    unfold verify_ed25519
    by_cases hlen : sig.length = 64
    · rw [if_neg (by push_neg; exact ⟨hlen, hvklen seed h32⟩)]
      simp only [hparse seed h32]
      exact hreject seed m sig h32 hne
    · rw [if_pos (Or.inl hlen)]

/-- Witness for C9: the contract instantiated with the concrete stand-in
backend, a concrete 32-byte seed, message, and a wrong 64-byte signature. -/
theorem C9_ed25519_verify_total_and_roundtrip_witness :
    (∃ sig pk,
        sign_ed25519 toyEd25519 [1, 2] (List.replicate 32 0) = Except.ok sig
        ∧ get_public_key toyEd25519 (List.replicate 32 0) = Except.ok pk
        ∧ verify_ed25519 toyEd25519 [1, 2] sig pk = true)
    ∧ verify_ed25519 toyEd25519 [1, 2] (List.replicate 64 1)
        (toyEd25519.verifyingKeyOf (List.replicate 32 0)) = false :=
  ⟨(C9_ed25519_verify_total_and_roundtrip toyEd25519
      (fun _ _ => rfl)
      (fun seed _ h => by simp [toyEd25519, h])
      (fun _ h => h)
      (fun seed msg _ => by simp [toyEd25519])
      (fun seed msg sig _ hne => by
        have hne2 : sig ≠ seed ++ seed := hne
        simp [toyEd25519, hne2])).2.2.1
        (List.replicate 32 0) [1, 2] (by simp),
   (C9_ed25519_verify_total_and_roundtrip toyEd25519
      (fun _ _ => rfl)
      (fun seed _ h => by simp [toyEd25519, h])
      (fun _ h => h)
      (fun seed msg _ => by simp [toyEd25519])
      (fun seed msg sig _ hne => by
        have hne2 : sig ≠ seed ++ seed := hne
        simp [toyEd25519, hne2])).2.2.2
        (List.replicate 32 0) [1, 2] (List.replicate 64 1) (by simp) (by decide)⟩

/-- Claim C7: during every populate of a parent folder from a manifest (either
mode), a manifest child whose name already maps to an inode under that parent
keeps its inode id, and only genuinely new names receive a freshly allocated
id (one at or above the pre-populate allocation counter). -/
theorem C7_populate_id_reuse (t : InodeTable) (parentIno : Nat)
    (metadata : FolderMetadata) (unwrapKey : Bytes → Except String Bytes)
    (uid gid now : Nat) (mergeOnly : Bool)
    (hwf : PopulateWF t parentIno)
    (hnodup : (metadata.children.map childName).Nodup) :
    ∀ t', t.populateFolder parentIno metadata unwrapKey uid gid now mergeOnly
        = .ok t' →
      ∀ nm, nm ∈ metadata.children.map childName →
        ((∀ i, t.findChild parentIno nm = some i →
            t'.findChild parentIno nm = some i)
         ∧ (t.findChild parentIno nm = none →
            ∃ i, t'.findChild parentIno nm = some i ∧ t.nextIno ≤ i)) := by
  intro t' hok nm hnm
  obtain ⟨t2, childInos, hpc, hidx, hnext, _⟩ := populateFolder_anatomy hok
  have hWF1 : PopulateWF
      (if mergeOnly then t
       else removeAbsentChildren parentIno (metadata.children.map childName)
         (parentChildren t parentIno) t) parentIno := by
    cases mergeOnly with
    | true => simpa using hwf
    | false =>
      simpa using WF_removeAbsent (metadata.children.map childName)
        (parentChildren t parentIno) hwf
  have hT1lk : ∀ n, n ∈ metadata.children.map childName →
      mapLookup (if mergeOnly then t
        else removeAbsentChildren parentIno (metadata.children.map childName)
          (parentChildren t parentIno) t).nameToIno (parentIno, n)
        = mapLookup t.nameToIno (parentIno, n) := by
    intro n hn
    cases mergeOnly with
    | true => rfl
    | false =>
      obtain ⟨_, _, hR4, _, _⟩ := removeAbsent_spec parentIno
        (metadata.children.map childName) (parentChildren t parentIno) t
      simpa using hR4 parentIno n (Or.inr hn)
  have hT1next : (if mergeOnly then t
      else removeAbsentChildren parentIno (metadata.children.map childName)
        (parentChildren t parentIno) t).nextIno = t.nextIno := by
    cases mergeOnly with
    | true => rfl
    | false =>
      obtain ⟨hR2, _, _, _, _⟩ := removeAbsent_spec parentIno
        (metadata.children.map childName) (parentChildren t parentIno) t
      simpa using hR2
  obtain ⟨_, _, _, _, _, hF2⟩ := populateChildren_spec hpc hWF1 hnodup
  obtain ⟨c, hc, hcn⟩ := List.mem_map.mp hnm
  obtain ⟨j, hjmem, ⟨_, hlk2, hthird⟩⟩ := forall₂_mem_left hF2 hc
  rw [hcn] at hlk2 hthird
  have hfind' : t'.findChild parentIno nm = some j := by
    unfold InodeTable.findChild
    rw [hidx, hlk2]
  constructor
  · intro i hfi
    rcases hthird with hsome | ⟨hnone, _⟩
    · rw [hT1lk nm hnm] at hsome
      unfold InodeTable.findChild at hfi
      rw [hfi] at hsome
      obtain ⟨hij⟩ := hsome
      rw [hfind']
    · rw [hT1lk nm hnm] at hnone
      unfold InodeTable.findChild at hfi
      rw [hfi] at hnone
      cases hnone
  · intro hfi
    rcases hthird with hsome | ⟨hnone, hge⟩
    · rw [hT1lk nm hnm] at hsome
      unfold InodeTable.findChild at hfi
      rw [hfi] at hsome
      cases hsome
    · rw [hT1next] at hge
      exact ⟨j, hfind', hge⟩

/-- Witness for C7: populating a fresh root with a one-file manifest allocates
a fresh id (the counter value 2) for the new name. -/
theorem C7_populate_id_reuse_witness :
    ∃ t', InodeTable.populateFolder (InodeTable.new 0 0 0) 1 exampleManifest
        Except.ok 0 0 5 false = Except.ok t'
      ∧ ∃ i, t'.findChild 1 "hello.txt" = some i
          ∧ (InodeTable.new 0 0 0).nextIno ≤ i := by
  obtain ⟨t', ht'⟩ : ∃ t',
      InodeTable.populateFolder (InodeTable.new 0 0 0) 1 exampleManifest
        Except.ok 0 0 5 false = Except.ok t' := ⟨_, rfl⟩
  refine ⟨t', ht', ?_⟩
  exact (C7_populate_id_reuse (InodeTable.new 0 0 0) 1 exampleManifest
    Except.ok 0 0 5 false (populateWF_new 0 0 0) (by decide)
    t' ht' "hello.txt" (by decide)).2 (by decide)

/-- Counterexample to claim C5 as stated: a sealed envelope that decrypts and
parses to JSON with version "v1" (not "v2") does NOT fail with a
DESERIALIZATION error — decrypt_any_folder_metadata accepts it as a v1
manifest (folder.rs deliberately defaults non-v2 versions to v1 parsing
"for backward compatibility"). -/
theorem C5_non_v2_accepted_counterexample :
    decrypt_any_folder_metadata (fun _ _ => List.replicate 16 0)
        (fun _ => Except.ok (Json.obj [("version", Json.str "v1"), ("children", Json.arr [])]))
        (seal_aes_gcm (fun _ _ => List.replicate 16 0) [123] [7] (List.replicate 12 3))
        [7]
      = Except.ok (AnyFolderMetadata.v1 { version := "v1", children := [] }) := by
  unfold decrypt_any_folder_metadata
  rw [unseal_seal_gcm (fun _ _ => List.replicate 16 0) [7] (List.replicate 12 3) [123]
      (by simp) (fun _ _ => by simp)]
  rfl

/-- Claim C5 (amended): for every sealed folder-manifest envelope that
decrypts and parses to JSON whose version field is anything other than "v2",
the decoder falls back to parsing the value against the v1 schema and accepts
it as a v1 manifest; it fails with DESERIALIZATION only when that v1 parse
also fails. -/
theorem C5_non_v2_falls_back_to_v1 (E : Bytes → Bytes → Bytes)
    (parse : Bytes → Except FolderError Json) (sealed key json : Bytes) (value : Json)
    (hunseal : unseal_aes_gcm E sealed key = Except.ok json)
    (hparse : parse json = Except.ok value)
    (hver : (value.getField "version").bind Json.asStr ≠ some "v2") :
    decrypt_any_folder_metadata E parse sealed key
      = (match fromValueFolderMetadata value with
         | some v1 => Except.ok (AnyFolderMetadata.v1 v1)
         | none => Except.error FolderError.DeserializationFailed) := by
  unfold decrypt_any_folder_metadata
  simp only [hunseal, hparse]
  unfold decodeAnyFolderValue
  split
  · rename_i heq
    exact absurd heq hver
  · rfl

/-- Witness for the amended C5: a non-v2 envelope whose JSON does not parse
as v1 either (missing children) is rejected with DESERIALIZATION. -/
theorem C5_non_v2_falls_back_to_v1_witness :
    decrypt_any_folder_metadata (fun _ _ => List.replicate 16 0)
        (fun _ => Except.ok (Json.obj [("version", Json.str "v3")]))
        (seal_aes_gcm (fun _ _ => List.replicate 16 0) [5] [7] (List.replicate 12 3)) [7]
      = Except.error FolderError.DeserializationFailed :=
  (C5_non_v2_falls_back_to_v1 (fun _ _ => List.replicate 16 0)
      (fun _ => Except.ok (Json.obj [("version", Json.str "v3")]))
      (seal_aes_gcm (fun _ _ => List.replicate 16 0) [5] [7] (List.replicate 12 3))
      [7] [5] (Json.obj [("version", Json.str "v3")])
      (unseal_seal_gcm (fun _ _ => List.replicate 16 0) [7] (List.replicate 12 3) [5]
        (by simp) (fun _ _ => by simp))
      rfl (by decide)).trans (by rfl)

/-- Replace-mode name set: after a merge_only=false populate, the parent's
child names are exactly the manifest's names. -/
theorem populateFolder_replace_name_set {t : InodeTable} {parentIno : Nat}
    {metadata : FolderMetadata} {unwrapKey : Bytes → Except String Bytes}
    {uid gid now : Nat} {t' : InodeTable}
    (hwf : PopulateWF t parentIno) (hch : ChildrenWF t parentIno)
    (hparent : (mapLookup t.inodes parentIno).isSome)
    (hnodup : (metadata.children.map childName).Nodup)
    (hok : t.populateFolder parentIno metadata unwrapKey uid gid now false
      = .ok t') :
    ∀ n, n ∈ childNames t' parentIno ↔ n ∈ metadata.children.map childName := by
  obtain ⟨t2, childInos, hpc0, hidx, hnext, hbr⟩ := populateFolder_anatomy hok
  have hpc : populateChildren parentIno uid gid unwrapKey
      (removeAbsentChildren parentIno (metadata.children.map childName)
        (parentChildren t parentIno) t) metadata.children
      = .ok (t2, childInos) := hpc0
  have hWF1 : PopulateWF (removeAbsentChildren parentIno
      (metadata.children.map childName) (parentChildren t parentIno) t)
      parentIno :=
    WF_removeAbsent (metadata.children.map childName)
      (parentChildren t parentIno) hwf
  obtain ⟨_, _, _, hA5, hA9, hF2⟩ := populateChildren_spec hpc hWF1 hnodup
  obtain ⟨_, _, _, _, hR5⟩ := removeAbsent_spec parentIno
    (metadata.children.map childName) (parentChildren t parentIno) t
  obtain ⟨parent0, hp0⟩ := Option.isSome_iff_exists.mp hparent
  have hpnotolds : parentIno ∉ parentChildren t parentIno := by
    intro hmem
    obtain ⟨d, _, _, hidx0⟩ := hch parentIno hmem
    exact (hwf.2.1 d.name parentIno hidx0).2 rfl
  have hpnotinos : parentIno ∉ childInos := fun hmem => (hA9 parentIno hmem).1 rfl
  have hp2 : mapLookup t2.inodes parentIno = some parent0 := by
    rw [hA5 parentIno hpnotinos, hR5 parentIno hpnotolds, hp0]
  rcases hbr with ⟨hnone, _⟩ | ⟨parent, hpsome, hother, parent2, hp2', hch2⟩
  · rw [hp2] at hnone; cases hnone
  · have hfin : parent2.children = some childInos := hch2
    have hpcs : parentChildren t' parentIno = childInos := by
      simp [parentChildren, hp2', hfin]
    intro n
    have hcne : childNames t' parentIno
        = childInos.filterMap
            (fun i => (mapLookup t'.inodes i).map InodeData.name) := by
      unfold childNames
      rw [hpcs]
    rw [hcne]
    constructor
    · intro hmem
      obtain ⟨i, hiin, him⟩ := List.mem_filterMap.mp hmem
      obtain ⟨c, hcin, hcR⟩ := forall₂_mem_right hF2 hiin
      obtain ⟨⟨d, hd2, hdn, _⟩, _, _⟩ := hcR
      have hine : i ≠ parentIno := (hA9 i hiin).1
      rw [hother i hine, hd2] at him
      have hn : d.name = n := Option.some.inj him
      exact List.mem_map.mpr ⟨c, hcin, hdn.symm.trans hn⟩
    · intro hmem
      obtain ⟨c, hcin, hcn2⟩ := List.mem_map.mp hmem
      obtain ⟨i, hiin, hcR⟩ := forall₂_mem_left hF2 hcin
      obtain ⟨⟨d, hd2, hdn, _⟩, _, _⟩ := hcR
      have hine : i ≠ parentIno := (hA9 i hiin).1
      refine List.mem_filterMap.mpr ⟨i, hiin, ?_⟩
      rw [hother i hine, hd2]
      exact congrArg some (hdn.trans hcn2)

/-- Merge-mode name set: after a merge_only=true populate, the parent's child
names are the union of the old names and the manifest's names. -/
theorem populateFolder_merge_name_set {t : InodeTable} {parentIno : Nat}
    {metadata : FolderMetadata} {unwrapKey : Bytes → Except String Bytes}
    {uid gid now : Nat} {t' : InodeTable}
    (hwf : PopulateWF t parentIno) (hch : ChildrenWF t parentIno)
    (hparent : (mapLookup t.inodes parentIno).isSome)
    (hnodup : (metadata.children.map childName).Nodup)
    (hok : t.populateFolder parentIno metadata unwrapKey uid gid now true
      = .ok t') :
    ∀ n, n ∈ childNames t' parentIno
      ↔ (n ∈ childNames t parentIno ∨ n ∈ metadata.children.map childName) := by
  obtain ⟨t2, childInos, hpc0, hidx, hnext, hbr⟩ := populateFolder_anatomy hok
  have hpc : populateChildren parentIno uid gid unwrapKey t metadata.children
      = .ok (t2, childInos) := hpc0
  obtain ⟨_, _, _, hA5, hA9, hF2⟩ := populateChildren_spec hpc hwf hnodup
  obtain ⟨parent0, hp0⟩ := Option.isSome_iff_exists.mp hparent
  have hpnotolds : parentIno ∉ parentChildren t parentIno := by
    intro hmem
    obtain ⟨d, _, _, hidx0⟩ := hch parentIno hmem
    exact (hwf.2.1 d.name parentIno hidx0).2 rfl
  have hpnotinos : parentIno ∉ childInos := fun hmem => (hA9 parentIno hmem).1 rfl
  have hp2 : mapLookup t2.inodes parentIno = some parent0 := by
    rw [hA5 parentIno hpnotinos, hp0]
  rcases hbr with ⟨hnone, _⟩ | ⟨parent, hpsome, hother, parent2, hp2', hch2⟩
  · rw [hp2] at hnone; cases hnone
  · have hpar : parent = parent0 := Option.some.inj (hpsome.symm.trans hp2)
    subst hpar
    have hfin : parent2.children = some (childInos
        ++ (parent.children.getD []).filter (fun i =>
            match mapLookup t2.inodes i with
            | some d => decide (d.name ∉ metadata.children.map childName)
            | none => false)) := hch2
    have holds : parentChildren t parentIno = parent.children.getD [] := by
      simp [parentChildren, hp0]
    have hpcs : parentChildren t' parentIno = childInos
        ++ (parent.children.getD []).filter (fun i =>
            match mapLookup t2.inodes i with
            | some d => decide (d.name ∉ metadata.children.map childName)
            | none => false) := by
      simp [parentChildren, hp2', hfin]
    intro n
    have hcne : childNames t' parentIno
        = (childInos ++ (parent.children.getD []).filter (fun i =>
              match mapLookup t2.inodes i with
              | some d => decide (d.name ∉ metadata.children.map childName)
              | none => false)).filterMap
            (fun i => (mapLookup t'.inodes i).map InodeData.name) := by
      unfold childNames
      rw [hpcs]
    rw [hcne]
    have hnew_in : ∀ m, m ∈ metadata.children.map childName →
        m ∈ (childInos ++ (parent.children.getD []).filter (fun i =>
              match mapLookup t2.inodes i with
              | some d => decide (d.name ∉ metadata.children.map childName)
              | none => false)).filterMap
            (fun i => (mapLookup t'.inodes i).map InodeData.name) := by
      intro m hm
      obtain ⟨c, hcin, hcm⟩ := List.mem_map.mp hm
      obtain ⟨i, hiin, ⟨⟨d, hd2, hdn, _⟩, _, _⟩⟩ := forall₂_mem_left hF2 hcin
      have hine : i ≠ parentIno := (hA9 i hiin).1
      refine List.mem_filterMap.mpr ⟨i, List.mem_append_left _ hiin, ?_⟩
      rw [hother i hine, hd2]
      exact congrArg some (hdn.trans hcm)
    constructor
    · intro hmem
      obtain ⟨i, hiin, him⟩ := List.mem_filterMap.mp hmem
      rcases List.mem_append.mp hiin with hiL | hiR
      · obtain ⟨c, hcin, ⟨⟨d, hd2, hdn, _⟩, _, _⟩⟩ := forall₂_mem_right hF2 hiL
        have hine : i ≠ parentIno := (hA9 i hiL).1
        rw [hother i hine, hd2] at him
        have hn : d.name = n := Option.some.inj him
        exact Or.inr (List.mem_map.mpr ⟨c, hcin, hdn.symm.trans hn⟩)
      · obtain ⟨hiolds0, hpred⟩ := List.mem_filter.mp hiR
        have hiolds : i ∈ parentChildren t parentIno := by
          rw [holds]; exact hiolds0
        obtain ⟨dt, hdt, hdtp, hdidx⟩ := hch i hiolds
        have hine : i ≠ parentIno := (hwf.2.1 dt.name i hdidx).2
        have hinotin : i ∉ childInos := by
          intro hic
          obtain ⟨c, hcin, ⟨⟨d, hd2, hdn, _⟩, _, _⟩⟩ := forall₂_mem_right hF2 hic
          simp only [hd2] at hpred
          exact (of_decide_eq_true hpred) (List.mem_map.mpr ⟨c, hcin, hdn.symm⟩)
        rw [hother i hine, hA5 i hinotin, hdt] at him
        have hn : dt.name = n := Option.some.inj him
        refine Or.inl (List.mem_filterMap.mpr ⟨i, hiolds, ?_⟩)
        rw [hdt]
        exact congrArg some hn
    · intro hmem
      rcases hmem with hold | hnew
      · obtain ⟨i, hiolds, him⟩ := List.mem_filterMap.mp hold
        obtain ⟨dt, hdt, hdtp, hdidx⟩ := hch i hiolds
        rw [hdt] at him
        have hn : dt.name = n := Option.some.inj him
        by_cases hnnew : n ∈ metadata.children.map childName
        · exact hnew_in n hnnew
        · have hine : i ≠ parentIno := (hwf.2.1 dt.name i hdidx).2
          have hinotin : i ∉ childInos := by
            intro hic
            rcases (hA9 i hic).2.2 with ⟨nm, hnmnew, hnmidx⟩ | hfresh
            · have heq : nm = dt.name := hwf.2.2 nm dt.name i hnmidx hdidx
              rw [heq, hn] at hnmnew
              exact hnnew hnmnew
            · exact absurd (hwf.2.1 dt.name i hdidx).1 (Nat.not_lt.mpr hfresh)
          have ht2i : mapLookup t2.inodes i = some dt := by
            rw [hA5 i hinotin, hdt]
          refine List.mem_filterMap.mpr ⟨i, List.mem_append_right _ ?_, ?_⟩
          · refine List.mem_filter.mpr ⟨by rw [← holds]; exact hiolds, ?_⟩
            simp only [ht2i]
            exact decide_eq_true (by rw [hn]; exact hnnew)
          · rw [hother i hine, ht2i]
            exact congrArg some hn
      · exact hnew_in n hnew

/-- Witness for C8: the three-entry scenario instantiated with concrete byte
strings of length cap/3 + 1. -/
theorem C8_content_cache_lru_eviction_witness :
    (mapLookup ((((ContentCache.new.set "a" (List.replicate (MAX_CACHE_SIZE / 3 + 1) 0) 1).set
        "b" (List.replicate (MAX_CACHE_SIZE / 3 + 1) 0) 2).get "a" 3).2.set
        "c" (List.replicate (MAX_CACHE_SIZE / 3 + 1) 0) 4).entries "a").isSome
    ∧ mapLookup ((((ContentCache.new.set "a" (List.replicate (MAX_CACHE_SIZE / 3 + 1) 0) 1).set
        "b" (List.replicate (MAX_CACHE_SIZE / 3 + 1) 0) 2).get "a" 3).2.set
        "c" (List.replicate (MAX_CACHE_SIZE / 3 + 1) 0) 4).entries "b" = none
    ∧ (mapLookup ((((ContentCache.new.set "a" (List.replicate (MAX_CACHE_SIZE / 3 + 1) 0) 1).set
        "b" (List.replicate (MAX_CACHE_SIZE / 3 + 1) 0) 2).get "a" 3).2.set
        "c" (List.replicate (MAX_CACHE_SIZE / 3 + 1) 0) 4).entries "c").isSome :=
  C8_content_cache_lru_eviction.2 _ _ _ (by simp) (by simp) (by simp)

/-- Claim C1: for every populate of a parent folder from a manifest, under the
spec's data-model invariants (injective per-parent name index with the counter
ahead of it, recorded children resolving back through the index) and unique
manifest names: with merge_only=false the parent's set of child names after the
populate equals the set of names in the manifest, and with merge_only=true it
is the union of the old name set and the manifest's names. -/
theorem C1_populate_name_sets (t : InodeTable) (parentIno : Nat)
    (metadata : FolderMetadata) (unwrapKey : Bytes → Except String Bytes)
    (uid gid now : Nat)
    (hwf : PopulateWF t parentIno) (hch : ChildrenWF t parentIno)
    (hparent : (mapLookup t.inodes parentIno).isSome)
    (hnodup : (metadata.children.map childName).Nodup) :
    (∀ t', t.populateFolder parentIno metadata unwrapKey uid gid now false
        = .ok t' →
      ∀ n, n ∈ childNames t' parentIno ↔ n ∈ metadata.children.map childName)
    ∧ (∀ t', t.populateFolder parentIno metadata unwrapKey uid gid now true
        = .ok t' →
      ∀ n, n ∈ childNames t' parentIno
        ↔ (n ∈ childNames t parentIno ∨ n ∈ metadata.children.map childName)) :=
  ⟨fun _ hok => populateFolder_replace_name_set hwf hch hparent hnodup hok,
   fun _ hok => populateFolder_merge_name_set hwf hch hparent hnodup hok⟩

/-- Witness for C1: populating a fresh root with the one-file manifest makes
the root's child-name set exactly the manifest's name set. -/
theorem C1_populate_name_sets_witness :
    ∃ t', InodeTable.populateFolder (InodeTable.new 0 0 0) 1 exampleManifest
        Except.ok 0 0 5 false = Except.ok t'
      ∧ ∀ n, n ∈ childNames t' 1 ↔ n ∈ exampleManifest.children.map childName := by
  obtain ⟨t', ht'⟩ : ∃ t', InodeTable.populateFolder (InodeTable.new 0 0 0) 1
      exampleManifest Except.ok 0 0 5 false = Except.ok t' := ⟨_, rfl⟩
  exact ⟨t', ht',
    (C1_populate_name_sets (InodeTable.new 0 0 0) 1 exampleManifest Except.ok
      0 0 5 (populateWF_new 0 0 0) (childrenWF_new 0 0 0) (by decide)
      (by decide)).1 t' ht'⟩

/-- Claim C6 fails on the code as written: find_child consults the
(parent_ino, name) index with the verbatim name and insert stores the verbatim
name, with no NFC normalization on either side. Inserting a child whose stored
name is the NFC spelling é (U+00E9) and then looking it up under the same
parent with the NFD spelling (e + U+0301) returns none instead of the child's
id, so the two Unicode forms of the same name do not resolve to the same
inode. -/
theorem C6_nfc_lookup_divergence :
    ((InodeTable.new 0 0 0).insert nfcNamedChild).findChild 1 nfcName
      = some nfcNamedChild.ino
    ∧ ((InodeTable.new 0 0 0).insert nfcNamedChild).findChild 1 nfdName
      = none := by
  constructor
  · rfl
  · rfl

end CipherBox
